
import Mathlib


/-!
Verification of the RoManTools romanized-Mandarin processing engine.

Texts are shallowly embedded as `List Char`.  Python strings become
`List Char`, Python slices become `List.take`/`List.drop`, Python's
`str.lower`/`str.upper`/`str.capitalize`/`str.isupper`/`str.istitle`
are modelled on the alphabet the tool actually processes
(ASCII letters, ü/Ü, apostrophes, dashes).  Fallible table lookups are
modelled with `Option`.  The chunker's two regular expressions are
embedded as the equivalent direct scanners over the same alphabet
classes; `unicodedata.normalize('NFC', ...)` is external and the
embedding starts from the already-normalized text.
-/

set_option maxRecDepth 10000


namespace RoManTools


/-- `constants.vowels` from `RoManTools/constants.py`. -/
def vowels : List Char := ['a', 'e', 'i', 'o', 'u', 'ü', 'v', 'ê', 'ŭ']


/-- `constants.apostrophes`; the backtick is written by code point. -/
def apostrophes : List Char := ['\'', '’', '‘', 'ʼ', 'ʻ', Char.ofNat 96]


/-- `constants.dashes`. -/
def dashes : List Char := ['-', '–', '—']


/-- `constants.supported_contractions` (`{"s","d","ll"}`). -/
def supported_contractions : List (List Char) := [['s'], ['d'], ['l', 'l']]


def isVowel (c : Char) : Bool := vowels.contains c


def isApos (c : Char) : Bool := apostrophes.contains c


def isDash (c : Char) : Bool := dashes.contains c


/-- A symbol character: apostrophe or dash. -/
def isSym (c : Char) : Bool := isApos c || isDash c


/-- The letter class `[a-zA-ZüÜ]` used by the chunker's regexes. -/
def isLetter (c : Char) : Bool :=
  (decide ('a' ≤ c) && decide (c ≤ 'z')) || (decide ('A' ≤ c) && decide (c ≤ 'Z'))
    || decide (c = 'ü') || decide (c = 'Ü')


def isAsciiLower (c : Char) : Bool := decide ('a' ≤ c) && decide (c ≤ 'z')


def isAsciiUpper (c : Char) : Bool := decide ('A' ≤ c) && decide (c ≤ 'Z')


/-- A cased character of the processed alphabet (for `str.isupper`). -/
def isCased (c : Char) : Bool := isAsciiLower c || isAsciiUpper c || decide (c = 'ü') || decide (c = 'Ü')


def isUpperChar (c : Char) : Bool := isAsciiUpper c || decide (c = 'Ü')


def isLowerChar (c : Char) : Bool := isAsciiLower c || decide (c = 'ü')


/-- `str.lower` on one character of the processed alphabet. -/
def toLowerChar (c : Char) : Char :=
  if isAsciiUpper c then Char.ofNat (c.toNat + 32) else if c = 'Ü' then 'ü' else c


/-- `str.upper` on one character of the processed alphabet. -/
def toUpperChar (c : Char) : Char :=
  if isAsciiLower c then Char.ofNat (c.toNat - 32) else if c = 'ü' then 'Ü' else c


def toLower (t : List Char) : List Char := t.map toLowerChar


def toUpper (t : List Char) : List Char := t.map toUpperChar


/-- Python `str.capitalize`: first character uppercased, the rest lowercased. -/
def pyCapitalize (t : List Char) : List Char :=
  match t with
  | [] => []
  | c :: cs => toUpperChar c :: cs.map toLowerChar


/-- Python `str.isupper`: at least one cased character and no lowercase cased one. -/
def pyIsUpper (t : List Char) : Bool :=
  t.any isCased && t.all (fun c => !isCased c || isUpperChar c)


/-- Python `str.istitle` on a string of ASCII letters only (the argument is
always `re.sub(r'[^a-zA-Z]', '', text)` in the source, a single cased run):
nonempty, first letter uppercase, all later letters lowercase. -/
def pyIsTitleLetters (t : List Char) : Bool :=
  match t with
  | [] => false
  | c :: cs => isAsciiUpper c && cs.all isAsciiLower


/-- `SyllableStatusAttributes._is_titlecase`: strip non-ASCII-letters, then `istitle`. -/
def titlecaseOf (t : List Char) : Bool := pyIsTitleLetters (t.filter fun c => isAsciiLower c || isAsciiUpper c)


/-- The two romanization methods dispatched by the strategy factory
(`strategies/factory.py` registers exactly `py` and `wg`). -/
inductive Method where
  | py : Method
  | wg : Method
deriving DecidableEq, Repr


/-- `method_params` as built by `data_loader.load_method_params`: the boolean
validation matrix `ar`, the initial list (containing the sentinel `"ø"`),
the final list, and the method. -/
structure MethodParams where
  ar : List (List Bool)
  init_list : List (List Char)
  fin_list : List (List Char)
  method : Method
deriving DecidableEq, Repr


/-- Python `list.index` (the hit case; callers guard membership first). -/
def listIndex (l : List (List Char)) (x : List Char) : Nat :=
  match l with
  | [] => 0
  | y :: ys => if y = x then 0 else listIndex ys x + 1


/-- `SyllableProcessor.validate_final_using_array`, with the fallible matrix
indexing `self.ar[initial_index][final_index]` made explicit: `none` models a
Python `IndexError`, `some b` a returned boolean.  The `-1` sentinel branch of
the source returns `False` before any matrix access. -/
def validate_final_using_array (p : MethodParams) (initial final : List Char) : Option Bool :=
  if initial ∈ p.init_list ∧ final ∈ p.fin_list then
    (p.ar.get? (listIndex p.init_list initial)).bind fun row => row.get? (listIndex p.fin_list final)
  else some false


/-- The validity matrix invariant of spec §3: `matrix` is `|initials| × |finals|`
(this is how `load_romanization_data` shapes a well-formed CSV). -/
def RectParams (p : MethodParams) : Prop :=
  p.ar.length = p.init_list.length ∧ ∀ row ∈ p.ar, row.length = p.fin_list.length


/-- The engine's view of `validate_final_using_array`: under `RectParams` no
lookup is out of range, and the engine (which would have crashed otherwise)
sees exactly this boolean. -/
def validateB (p : MethodParams) (initial final : List Char) : Bool :=
  (validate_final_using_array p initial final).getD false


/-! ### The syllable engine (`RoManTools/syllable.py` with the strategies of
`RoManTools/strategies/pinyin.py` and `RoManTools/strategies/wade_giles.py`) -/

/-- `Syllable._find_initial`, scanning `t` from index `i` with `rest = t.drop i`.
A vowel at index 0 yields the sentinel `"ø"`; a later vowel cuts the initial
there (whether or not it is in the initial list, the same slice is returned);
an apostrophe dispatches to the strategy (`wg` keeps a normalized `'` at the
end of the initial, the default drops everything from the apostrophe on);
with no vowel or apostrophe the whole text is the initial. -/
def find_initial_go (p : MethodParams) (t : List Char) (i : Nat) (rest : List Char) : List Char :=
  match rest with
  | [] => t
  | c :: cs =>
    if isVowel c then
      if i = 0 then ['ø'] else t.take i
    else if isApos c then
      if p.method = Method.wg then t.take i ++ ['\''] else t.take i
    else find_initial_go p t (i + 1) cs


def find_initial (p : MethodParams) (t : List Char) : List Char :=
  find_initial_go p t 0 t


/-- `Syllable.handle_vowel_case`: `none` means "keep scanning" (Python `None`). -/
def handle_vowel_case (p : MethodParams) (t : List Char) (i : Nat) (initial : List Char) :
    Option (List Char) :=
  if i + 1 = t.length then some t
  else
    let test_finals := p.fin_list.filter fun f =>
      (t.take (i + 1)).isPrefixOf f && validateB p initial f
    if test_finals.isEmpty then
      if i = 0 then none else some (t.take i)
    else none


/-- Python's slice `text[i-1:i+1]` for `0 ≤ i < len text` (a negative start
wraps around, so at `i = 0` it is `text[-1:1]`). -/
def erSlice (t : List Char) (i : Nat) : List Char :=
  if i = 0 then (if t.length = 1 then t else []) else (t.drop (i - 1)).take 2


/-- The `n`/`ng` part of `Syllable.handle_consonant_case` (reached when the
`er` branch did not return). -/
def consonant_n_case (p : MethodParams) (t : List Char) (i : Nat) (initial : List Char)
    (rem : Nat) : List Char :=
  if t.getD i '?' = 'n' then
    let next_char_is_g := decide (0 < rem) && decide (t.getD (i + 1) '?' = 'g')
    let valid_ng := next_char_is_g &&
      (decide (rem = 1) || !isVowel (t.getD (i + 2) '?') || !validateB p initial (t.take (i + 1)))
    if valid_ng then t.take (i + 2)
    else if next_char_is_g then t.take (i + 1)
    else
      let valid_n := decide (rem = 0) || !isVowel (t.getD (i + 1) '?')
        || !validateB p initial (t.take i)
      if valid_n then t.take (i + 1) else t.take i
  else t.take i


/-- `Syllable.handle_consonant_case`. -/
def handle_consonant_case (p : MethodParams) (t : List Char) (i : Nat) (initial : List Char) :
    List Char :=
  let rem := t.length - i - 1
  if erSlice t i = ['e', 'r'] then
    if p.method = Method.wg then
      if decide (0 < rem) && decide (t.getD (i + 1) '?' = 'h') then t.take (i + 2)
      else t.take (i + 1)
    else if decide (rem = 0) || !isVowel (t.getD (i + 1) '?') then t.take (i + 1)
    else consonant_n_case p t i initial rem
  else consonant_n_case p t i initial rem


/-- `PinyinStrategy.find_final`: vowel/consonant dispatch over the text. -/
def py_find_final_go (p : MethodParams) (t : List Char) (initial : List Char) (i : Nat)
    (rest : List Char) : List Char :=
  match rest with
  | [] => t
  | c :: cs =>
    if isVowel c then
      match handle_vowel_case p t i initial with
      | some f => f
      | none => py_find_final_go p t initial (i + 1) cs
    else handle_consonant_case p t i initial


def py_find_final (p : MethodParams) (t : List Char) (initial : List Char) : List Char :=
  py_find_final_go p t initial 0 t


/-- Index of the first apostrophe in `t`, if any (the scan at the top of
`WadeGilesStrategy.find_final`). -/
def firstAposIdx (t : List Char) : Option Nat :=
  match t with
  | [] => none
  | c :: cs => if isApos c then some 0 else (firstAposIdx cs).map (· + 1)


/-- `WadeGilesStrategy._can_form_valid_wg_syllables`. -/
def can_form_valid_wg_syllables (p : MethodParams) (t : List Char) : Bool :=
  if t.length ≤ 1 then false
  else
    (p.init_list.any fun init => decide (init ≠ ['ø']) && init.isPrefixOf t)
      || (match t with | [] => false | c :: _ => isVowel c)


/-- `WadeGilesStrategy._is_complete_wg_syllable_valid` (the longest-first
ordering of the initial loop does not change this boolean). -/
def is_complete_wg_syllable_valid (p : MethodParams) (st : List Char) : Bool :=
  (p.init_list.any fun init =>
      decide (init ≠ ['ø']) && init.isPrefixOf st && validateB p init (st.drop init.length))
    || (match st with | [] => false | c :: _ => isVowel c && validateB p ['ø'] st)


/-- `WadeGilesStrategy._find_wg_final_with_backtrack`: Python returns at the
full-length final immediately and otherwise keeps the longest collected
candidate, i.e. the first qualifying length counting down from `len t`. -/
def wg_backtrack (p : MethodParams) (t : List Char) (initial : List Char) : List Char :=
  match (List.range' 1 t.length).reverse.find? (fun fe =>
      validateB p initial (t.take fe)
        && (decide (t.length ≤ fe) || can_form_valid_wg_syllables p (t.drop fe))) with
  | some fe => t.take fe
  | none => t


/-- `WadeGilesStrategy._find_wg_syllable_boundaries`: candidate syllable ends
`range(2, len(text) + 1)` in increasing order. -/
def wg_boundaries (p : MethodParams) (t : List Char) : List Char :=
  match (List.range' 2 (t.length - 1)).find? (fun k =>
      is_complete_wg_syllable_valid p (t.take k)
        && (decide (t.length ≤ k) || can_form_valid_wg_syllables p (t.drop k))) with
  | some k => t.take k
  | none => t


/-- `WadeGilesStrategy.find_final`. -/
def wg_find_final (p : MethodParams) (t : List Char) (initial : List Char) : List Char :=
  match firstAposIdx t with
  | some i => t.take i
  | none =>
    if initial ≠ [] ∧ initial ≠ ['ø'] then wg_backtrack p t initial
    else wg_boundaries p t


/-- `Syllable._find_final` via the strategy factory. -/
def find_final (p : MethodParams) (t : List Char) (initial : List Char) : List Char :=
  match p.method with
  | Method.py => py_find_final p t initial
  | Method.wg => wg_find_final p t initial


/-- `Syllable._find_initial_final`: returns (initial, final, full_syllable,
remainder), with the sentinel collapsed to the empty initial afterwards. -/
def find_initial_final (p : MethodParams) (t : List Char) :
    List Char × List Char × List Char × List Char :=
  let initial := find_initial p t
  if initial = ['ø'] then
    let final := find_final p t ['ø']
    ([], final, final, t.drop final.length)
  else
    let final := find_final p (t.drop initial.length) initial
    (initial, final, initial ++ final, t.drop (initial ++ final).length)


/-- `Syllable._validate_syllable`. -/
def validate_syllable (p : MethodParams) (initial final : List Char) : Bool :=
  if initial = [] then validateB p ['ø'] final else validateB p initial final


/-- The fields of a parsed `Syllable` consumed downstream (`text` is
`text_attr.text` after lowering and first-character handling; the status
attributes mirror `SyllableStatusAttributes`, which the older `src/word.py`
reads as direct attributes). -/
structure Syl where
  text : List Char
  initial : List Char
  final : List Char
  full_syllable : List Char
  remainder : List Char
  valid : Bool
  has_apostrophe : Bool
  has_dash : Bool
  uppercase : Bool
  capitalize : Bool
deriving DecidableEq, Repr


/-- `Syllable.__init__` as a function of the raw text (Python crashes on the
empty string at `text[0]`; the chunker never passes one, and the embedding
leaves `[]` untouched): lower the text, record the status flags from the
original text, strip a leading apostrophe (non-`wg`) or dash, then find
initial/final/remainder and validate. -/
def createSyllable (p : MethodParams) (text : List Char) : Syl :=
  let lowered := toLower text
  let hasApos := match lowered.head? with | some c => isApos c | none => false
  let hasDash := match lowered.head? with | some c => !isApos c && isDash c | none => false
  let t := if (hasApos && decide (p.method ≠ Method.wg)) || hasDash then lowered.tail else lowered
  let r := find_initial_final p t
  { text := t
    initial := r.1
    final := r.2.1
    full_syllable := r.2.2.1
    remainder := r.2.2.2
    valid := validate_syllable p r.1 r.2.1
    has_apostrophe := hasApos
    has_dash := hasDash
    uppercase := pyIsUpper text
    capitalize := titlecaseOf text }


/-- The `while remaining_text:` loop of `TextChunkProcessor._process_split_words`
for one split word, with explicit fuel (claim C1 is exactly that `len` fuel
always suffices). -/
def parseChain (p : MethodParams) : Nat → List Char → List Syl
  | 0, _ => []
  | _ + 1, [] => []
  | fuel + 1, t =>
    let s := createSyllable p t
    s :: parseChain p fuel s.remainder


/-- Iterating the remainder of successive syllable creations. -/
def iterRemainder (p : MethodParams) : Nat → List Char → List Char
  | 0, t => t
  | fuel + 1, t => if t = [] then [] else iterRemainder p fuel (createSyllable p t).remainder


/-! ### The text chunker (`RoManTools/chunker.py`)

The two regular expressions are embedded as direct scanners over the same
character classes; fuel (always instantiated with the text length, which
suffices because every step consumes at least one character) keeps them
structurally recursive and computable by the kernel. -/

def chars (s : String) : List Char := s.toList


/-- One step of `(?:['’ʼ`\-–—][a-zA-ZüÜ]+)*`: greedily extend a word segment
with symbol-plus-letters groups. Returns (extension, rest). -/
def wordExtF : Nat → List Char → List Char × List Char
  | 0, r => ([], r)
  | fuel + 1, r =>
    match r with
    | c :: d :: rest =>
      if isSym c && isLetter d then
        let s := (d :: rest).span isLetter
        let e := wordExtF fuel s.2
        (c :: (s.1 ++ e.1), e.2)
      else ([], r)
    | _ => ([], r)


/-- Longest match of `[a-zA-ZüÜ]+(?:['’ʼ`\-–—][a-zA-ZüÜ]+)*` at a letter. -/
def takeWordSeg (t : List Char) : List Char × List Char :=
  let s := t.span isLetter
  let e := wordExtF t.length s.2
  (s.1 ++ e.1, e.2)


/-- Tagged maximal segments of the input: `(true, seg)` for a word segment,
`(false, seg)` for a maximal non-letter run. -/
def splitSegsF : Nat → List Char → List (Bool × List Char)
  | 0, _ => []
  | _ + 1, [] => []
  | fuel + 1, c :: cs =>
    if isLetter c then
      let s := takeWordSeg (c :: cs)
      (true, s.1) :: splitSegsF fuel s.2
    else
      let s := (c :: cs).span fun x => !isLetter x
      (false, s.1) :: splitSegsF fuel s.2


/-- `TextChunkProcessor._split_text_into_segments`: with `error_skip` the
pattern also captures the non-text runs, without it `re.findall` returns the
word segments only. -/
def split_text_into_segments (errorSkip : Bool) (text : List Char) : List (Bool × List Char) :=
  let segs := splitSegsF text.length text
  if errorSkip then segs else segs.filter (·.1)


/-- `re.findall(r"[a-zA-ZüÜ]+|['’ʼ`\-–—][a-zA-ZüÜ]+", word)` (Pinyin split). -/
def splitWordPyF : Nat → List Char → List (List Char)
  | 0, _ => []
  | _ + 1, [] => []
  | fuel + 1, c :: cs =>
    if isLetter c then
      let s := (c :: cs).span isLetter
      s.1 :: splitWordPyF fuel s.2
    else if isSym c then
      match cs with
      | d :: _ =>
        if isLetter d then
          let s := cs.span isLetter
          (c :: s.1) :: splitWordPyF fuel s.2
        else splitWordPyF fuel cs
      | [] => []
    else splitWordPyF fuel cs


/-- A character matched by the Wade-Giles word class `[a-zA-ZüÜ'’ʼ`]`. -/
def isWgPart (c : Char) : Bool := isLetter c || isApos c


/-- `re.findall(r"[a-zA-ZüÜ'’ʼ`]+|[\-–—][a-zA-ZüÜ'’ʼ`]+", word)` (WG split). -/
def splitWordWgF : Nat → List Char → List (List Char)
  | 0, _ => []
  | _ + 1, [] => []
  | fuel + 1, c :: cs =>
    if isWgPart c then
      let s := (c :: cs).span isWgPart
      s.1 :: splitWordWgF fuel s.2
    else if isDash c then
      match cs with
      | d :: _ =>
        if isWgPart d then
          let s := cs.span isWgPart
          (c :: s.1) :: splitWordWgF fuel s.2
        else splitWordWgF fuel cs
      | [] => []
    else splitWordWgF fuel cs


/-- `TextChunkProcessor._split_word` (`split_words if len > 1 else [word]`). -/
def split_word (m : Method) (w : List Char) : List (List Char) :=
  let parts := match m with
    | Method.py => splitWordPyF w.length w
    | Method.wg => splitWordWgF w.length w
  if parts.length > 1 then parts else [w]


/-- A processed chunk: a word (list of syllables) or a verbatim string. -/
inductive Chunk where
  | word (syls : List Syl) : Chunk
  | lit (s : List Char) : Chunk
deriving DecidableEq, Repr


/-- One split word fed through the syllable engine until consumed. -/
def parseWord (p : MethodParams) (w : List Char) : List Syl :=
  parseChain p w.length w


/-- `TextChunkProcessor._process_text`: word segments are split and parsed
into a single syllable-list chunk each; non-text segments pass through. -/
def process_text (p : MethodParams) (errorSkip : Bool) (text : List Char) : List Chunk :=
  (split_text_into_segments errorSkip text).map fun seg =>
    if seg.1 then Chunk.word ((split_word p.method seg.2).map (parseWord p)).flatten
    else Chunk.lit seg.2


/-- `utils.segment_text` (default configuration): full syllables per word. -/
def segment_text (p : MethodParams) (text : List Char) :
    List (Sum (List (List Char)) (List Char)) :=
  (process_text p false text).map fun ch =>
    match ch with
    | Chunk.word syls => Sum.inl (syls.map (·.full_syllable))
    | Chunk.lit s => Sum.inr s


/-- `utils.syllable_count` from `RoManTools/utils.py`: the length of every
word chunk, with no validity check (the inline comment says "otherwise
return 0", which the code does not do). -/
def syllable_count (p : MethodParams) (text : List Char) : List Nat :=
  (process_text p false text).filterMap fun ch =>
    match ch with
    | Chunk.word syls => some syls.length
    | Chunk.lit _ => none


/-- `syllable_count` as its own comment, the spec, the sibling
implementations (`src/utils.py`, `Tools/utils.py`) and the repository test
suite describe it: 0 for a word containing any invalid syllable. -/
def syllable_count_documented (p : MethodParams) (text : List Char) : List Nat :=
  (process_text p false text).filterMap fun ch =>
    match ch with
    | Chunk.word syls => some (if syls.all (·.valid) then syls.length else 0)
    | Chunk.lit _ => none


/-! ### The converter (`RoManTools/conversion.py`) -/

/-- One row of `conversion_mapping.csv` as loaded by `load_conversion_data`. -/
structure ConvRow where
  py : List Char
  wg : List Char
  meta : List Char
deriving DecidableEq, Repr


def rowGet (r : ConvRow) : Method → List Char
  | Method.py => r.py
  | Method.wg => r.wg


/-- `RomanizationConverter._make_cached_convert`'s inner `_cached_convert`
(the lru cache is pure memoization and does not change the value). -/
def converter_convert (rows : List ConvRow) (cfrom cto : Method) (text : List Char) : List Char :=
  match rows.find? (fun row => toLower (rowGet row cfrom) = toLower text) with
  | some row =>
    if rowGet row cto = [] ∧ row.meta = chars ("rare") then text ++ chars ("(!rare Pinyin!)")
    else rowGet row cto
  | none => text ++ chars ("(!)")


/-! ### The word reconstructor (`src/word.py`) -/

/-- The conversion context held by `WordProcessor`. -/
structure WordCtx where
  error_skip : Bool
  convert_from : Method
  convert_to : Method
  stopwords : List (List Char)
  conv : List ConvRow
deriving DecidableEq, Repr


def wconvert (ctx : WordCtx) (t : List Char) : List Char :=
  converter_convert ctx.conv ctx.convert_from ctx.convert_to t


/-- `Word._create_preview_word`. -/
def preview_word (syls : List Syl) : List Char :=
  (syls.map fun s =>
    (if s.has_apostrophe then ['\''] else if s.has_dash then ['-'] else []) ++ s.full_syllable).flatten


/-- `Word.all_valid`. -/
def all_valid (syls : List Syl) : Bool := syls.all (·.valid)


/-- `Word.is_contraction` (Python indexes `syllables[-1]`, raising on an
empty word; words from the chunker are never empty). -/
def is_contraction (ctx : WordCtx) (syls : List Syl) : Bool :=
  syls.dropLast.all (·.valid)
    && (match syls.getLast? with
        | some lastS =>
          lastS.has_apostrophe && decide (lastS.full_syllable ∈ supported_contractions)
        | none => false)
    && ctx.error_skip


/-- `Word.is_convertable`. -/
def is_convertable (ctx : WordCtx) (syls : List Syl) : Bool :=
  (all_valid syls || is_contraction ctx syls) && decide (preview_word syls ∉ ctx.stopwords)


/-- `Word.convert`: the pairs `(processed text, syllable)`. -/
def convert_step (ctx : WordCtx) (syls : List Syl) : List (List Char × Syl) :=
  if !ctx.error_skip then syls.map fun s => (wconvert ctx s.full_syllable, s)
  else if is_convertable ctx syls then
    syls.map fun s =>
      if s.valid then (wconvert ctx s.full_syllable, s) else (s.full_syllable, s)
  else syls.map fun s => (s.full_syllable, s)


/-- `Syllable.apply_caps`. -/
def syl_apply_caps (s : Syl) (t : List Char) : List Char :=
  if s.uppercase then toUpper t else if s.capitalize then pyCapitalize t else t


/-- `Word.apply_caps`. -/
def apply_caps_step (ps : List (List Char × Syl)) : List (List Char × Syl) :=
  ps.map fun e => (syl_apply_caps e.2 e.1, e.2)


/-- `Word._needs_apostrophe` (Python indexes `prev[-1]` and `curr[0]`,
raising on empty strings; the embedding returns `false` there). -/
def needs_apostrophe (prev curr : List Char) : Bool :=
  match prev.getLast?, curr.head? with
  | some pl, some ch =>
    (isVowel pl && isVowel ch) || ((chars ("er")).isSuffixOf prev && isVowel ch)
      || (decide (pl = 'n') && isVowel ch) || ((chars ("ng")).isSuffixOf prev && isVowel ch)
  | _, _ => false


/-- The loop of `Word.add_symbols` over `Word._append_syllable`: `prevTxt` is
`processed_syllables[i-1][0]`, `total` the word's syllable count. -/
def append_syllables (ctx : WordCtx) (contraction : Bool) (total : Nat) (prevTxt : List Char)
    (i : Nat) (rest : List (List Char × Syl)) : List Char :=
  match rest with
  | [] => []
  | e :: more =>
    let piece :=
      match ctx.convert_to with
      | Method.py =>
        if e.2.valid then (if needs_apostrophe prevTxt e.1 then '\'' :: e.1 else e.1) else []
      | Method.wg =>
        if contraction && decide (i = total - 1) then '\'' :: e.1 else '-' :: e.1
    piece ++ append_syllables ctx contraction total e.1 (i + 1) more


/-- `Word._append_all_syllables`. -/
def append_all_syllables (ps : List (List Char × Syl)) : List Char :=
  (ps.map fun e =>
    (if e.2.has_apostrophe then ['\''] else if e.2.has_dash then ['-'] else []) ++ e.1).flatten


/-- `Word.add_symbols`. -/
def add_symbols (ctx : WordCtx) (syls : List Syl) (ps : List (List Char × Syl)) : List Char :=
  if is_convertable ctx syls then
    match ps with
    | [] => []
    | e0 :: rest => e0.1 ++ append_syllables ctx (is_contraction ctx syls) ps.length e0.1 1 rest
  else append_all_syllables ps


/-- `Word.process_syllables`. -/
def process_syllables (ctx : WordCtx) (syls : List Syl) : List Char :=
  add_symbols ctx syls (apply_caps_step (convert_step ctx syls))


/-- `utils._conversion_processing`. -/
def conversion_processing (p : MethodParams) (ctx : WordCtx) (text : List Char)
    (includeSpaces : Bool) : List Char :=
  let chunks := process_text p ctx.error_skip text
  let parts := chunks.map fun ch =>
    match ch with
    | Chunk.word syls => process_syllables ctx syls
    | Chunk.lit s => s
  if includeSpaces then List.intercalate (chars (" ")) parts else parts.flatten


/-- `utils.cherry_pick` (default path: `Config(error_skip=True)`, no spaces). -/
def cherry_pick (p : MethodParams) (ctx : WordCtx) (text : List Char) : List Char :=
  conversion_processing p { ctx with error_skip := true } text false


/-- `utils.convert_text` (spaces between chunks; `error_skip` as configured,
`false` in the default `Config()`). -/
def convert_text (p : MethodParams) (ctx : WordCtx) (text : List Char) : List Char :=
  conversion_processing p ctx text true


/-! ### Demonstration tables

The CSV data files (`data/pyDF.csv`, `data/wgDF.csv`, `conversion_mapping.csv`,
`stopwords.txt`) are not part of the source tree; where a concrete table is
needed the fragments below are modelled from the spec. -/

/-- Modelled from the spec: the fragment of the Pinyin validity table
(`data/pyDF.csv`, absent from the source tree) needed for the `"changan"`
example of spec §8 — initials `ch` and `g`, `a`-family finals, all the
combinations involved being valid. -/
def pyDemoParams : MethodParams :=
  { method := Method.py
    init_list := [chars ("ø"), chars ("ch"), chars ("g")]
    fin_list := [chars ("a"), chars ("an"), chars ("ang")]
    ar := [[true, true, true], [true, true, true], [true, true, true]] }


/-- Modelled from the spec: a fragment of the Wade-Giles validity table
(`data/wgDF.csv`, absent from the source tree) in which `a` and `ai` are
valid vowel-initial finals, as in the real method. -/
def wgDemoParams : MethodParams :=
  { method := Method.wg
    init_list := [chars ("ø")]
    fin_list := [chars ("a"), chars ("ai")]
    ar := [[true, true]] }


/-- Modelled from the spec: two rows of the conversion table
(`conversion_mapping.csv`, absent from the source tree) — an ordinary
`zhong → chung` row and a rare row whose target spelling is absent. -/
def demoRows : List ConvRow :=
  [{ py := chars ("zhong"), wg := chars ("chung"), meta := [] },
   { py := chars ("shek"), wg := [], meta := chars ("rare") }]


/-! ### Claim C10: the convertibility/stopword gate is cherry-pick-only -/

/-- A conversion context whose stopword set even contains the test word. -/
def stopCtx : WordCtx :=
  { error_skip := false
    convert_from := Method.py
    convert_to := Method.wg
    stopwords := [chars ("xyz")]
    conv := [] }


/-- A concrete cherry-pick context whose stopword set contains `"changan"`. -/
def cherryStopCtx : WordCtx :=
  { error_skip := true
    convert_from := Method.py
    convert_to := Method.wg
    stopwords := [chars ("changan")]
    conv := [] }


/-! ### Claim C6: separator re-insertion for convertible words -/

/-- The separator rule of claim C6 for the apostrophe-target system, written
from the claim's words: the previous output syllable ends in a vowel, `"er"`,
`"n"` or `"ng"`, and the current output syllable begins with a vowel. -/
def claimed_py_separator (prevTxt currTxt : List Char) : List Char :=
  if ((match prevTxt.getLast? with
      | some pl => isVowel pl || (chars ("er")).isSuffixOf prevTxt || decide (pl = 'n')
          || (chars ("ng")).isSuffixOf prevTxt
      | none => false)
    && (match currTxt.head? with | some ch => isVowel ch | none => false)) = true
  then ['\''] else []


/-- The claim-C6 reassembly for the apostrophe-target system: each syllable
text is preceded by an apostrophe exactly when `claimed_py_separator` says so. -/
def claimed_py_join : List Char → List (List Char) → List Char
  | _, [] => []
  | prev, c :: rest => (claimed_py_separator prev c ++ c) ++ claimed_py_join c rest


/-- The claim-C6 reassembly for the dash-target system: every boundary gets a
dash, except the one before a preserved trailing contraction, which gets an
apostrophe. -/
def claimed_wg_join (contraction : Bool) (total : Nat) : Nat → List (List Char) → List Char
  | _, [] => []
  | i, c :: rest =>
    ((if contraction && decide (i = total - 1) then ['\''] else ['-']) ++ c)
      ++ claimed_wg_join contraction total (i + 1) rest


/-- A conversion context targeting the dash-based system with no stopwords. -/
def wgTargetCtx : WordCtx :=
  { error_skip := true
    convert_from := Method.py
    convert_to := Method.wg
    stopwords := []
    conv := [] }


/-- The structural half of claim C3's acceptance condition, written from the
claim's words: the prefix decomposes into a known initial plus a validating
final, or a sentinel-initial final that validates on its own. -/
def claimed_wg_struct (p : MethodParams) (st : List Char) : Bool :=
  (p.init_list.any fun init =>
    decide (init ≠ ['ø']) && init.isPrefixOf st && validateB p init (st.drop init.length))
  || validateB p ['ø'] st


/-- The feasibility half of claim C3, written from the claim's words: the
remaining suffix can itself begin a valid syllable (starts with a known
initial or a vowel). -/
def claimed_wg_can_begin (p : MethodParams) (t : List Char) : Bool :=
  (p.init_list.any fun init => decide (init ≠ ['ø']) && init.isPrefixOf t)
    || (match t with | [] => false | c :: _ => isVowel c)


/-- The boundary search as claim C3 states it: prefix lengths from 2 up, first
accepted prefix returned, whole text otherwise. -/
def wg_boundaries_claimed (p : MethodParams) (t : List Char) : List Char :=
  match (List.range' 2 (t.length - 1)).find? (fun k =>
      claimed_wg_struct p (t.take k)
        && (decide (t.length ≤ k) || claimed_wg_can_begin p (t.drop k))) with
  | some k => t.take k
  | none => t


/-- The acceptance condition with the amendment the counterexample forces:
the remaining suffix qualifies only when it is empty or has length at least 2
(in addition to starting with a known initial or a vowel). -/
def wg_accept_amended (p : MethodParams) (t : List Char) (k : Nat) : Bool :=
  claimed_wg_struct p (t.take k)
    && (decide (t.length ≤ k)
      || (decide (2 ≤ (t.drop k).length) && claimed_wg_can_begin p (t.drop k)))


/-! ### Definitions supporting claim C4 (cherry-pick identity) -/

/-- The lowercase letters of the word alphabet. -/
def lowerLetters : List Char := chars ("abcdefghijklmnopqrstuvwxyzü")

/-- The uppercase ASCII letters (a title-cased part must start with one for
`re.sub(r'[^a-zA-Z]', ...)` + `istitle` to record it). -/
def upperLetters : List Char := chars ("ABCDEFGHIJKLMNOPQRSTUVWXYZ")

/-- Letters of one split-word part whose casing survives the engine's
lower-casing and `apply_caps`: all lowercase, or one uppercase ASCII letter
followed by lowercase. -/
def lettersShapeOK (L : List Char) : Bool :=
  match L with
  | [] => false
  | c :: cs =>
    (lowerLetters.contains c || upperLetters.contains c)
      && cs.all fun d => lowerLetters.contains d

/-- The shape of a split-word part under which the cherry-pick passthrough
is byte-identical: an optional leading plain apostrophe (Pinyin split only)
or plain dash, then caps-reproducible letters. -/
def partOK (m : Method) (q : List Char) : Bool :=
  match q with
  | [] => false
  | c :: cs =>
    if c = '\'' then decide (m = Method.py) && lettersShapeOK cs
    else if c = '-' then lettersShapeOK cs
    else lettersShapeOK q

/-- The literal passthrough of a word: original symbols re-prefixed and
capitalization re-applied to the unconverted full syllables (the
`error_skip`-and-not-convertible path of `Word.process_syllables`). -/
def pieces (syls : List Syl) : List Char :=
  append_all_syllables (apply_caps_step (syls.map fun s => (s.full_syllable, s)))

/-- The hypotheses of the amended claim C4, as one decidable condition on the
input text: every word segment splits into parts that reassemble to it, each
part has the passthrough-safe shape, and no word chunk is convertible. -/
def cherry_ident_ok (p : MethodParams) (ctx : WordCtx) (text : List Char) : Bool :=
  (split_text_into_segments true text).all fun seg =>
    !seg.1 ||
      (decide ((split_word p.method seg.2).flatten = seg.2)
        && (split_word p.method seg.2).all (fun q => partOK p.method q)
        && !is_convertable { ctx with error_skip := true }
            ((split_word p.method seg.2).map (parseWord p)).flatten)

/-- Modelled from the spec: a Wade-Giles table fragment with initial `tz`
and finals `a`, `ai`, `u` (all combinations valid), enough to parse
`"tzu'an"`. -/
def wgDemo2Params : MethodParams :=
  { method := Method.wg
    init_list := [chars ("ø"), chars ("tz")]
    fin_list := [chars ("a"), chars ("ai"), chars ("u")]
    ar := [[true, true, true], [true, true, true]] }

/-- A conversion context with empty tables and no stopwords. -/
def plainCtx (m : Method) : WordCtx :=
  { error_skip := true
    convert_from := m
    convert_to := Method.wg
    stopwords := []
    conv := [] }

/-! ### The word-segment shape (claim C1) -/

/-- Every character that can occur in a chunker word segment or split word:
the letter class `[a-zA-ZüÜ]` of the segment regexes plus the apostrophe and
dash classes. -/
def segChars : List Char :=
  chars ("abcdefghijklmnopqrstuvwxyzABCDEFGHIJKLMNOPQRSTUVWXYZ") ++ ['ü', 'Ü']
    ++ apostrophes ++ dashes

/-- No two adjacent symbol (apostrophe/dash) characters. -/
def noConsecSym : List Char → Bool
  | [] => true
  | [_] => true
  | c :: d :: rest => !(isSym c && isSym d) && noConsecSym (d :: rest)

/-- The shape of every word segment and split word the chunker can feed to
the syllable engine: word-alphabet characters only, no two adjacent
apostrophes/dashes, and a final letter. -/
def wordSegOK (t : List Char) : Bool :=
  t.all (fun c => segChars.contains c) && noConsecSym t &&
    (match t.getLast? with | some c => isLetter c | none => false)

theorem listIndex_lt_length (l : List (List Char)) (x : List Char) (h : x ∈ l) :
    listIndex l x < l.length := by
  induction l with
  | nil => cases h
  | cons y ys ih =>
    by_cases hy : y = x
    · simp [listIndex, hy]
    · rw [List.mem_cons] at h
      rcases h with h | h
      · exact absurd h.symm hy
      · simpa [listIndex, hy, Nat.succ_lt_succ_iff] using ih h


theorem validate_lookup_isSome (p : MethodParams) (hp : RectParams p)
    (initial final : List Char) : (validate_final_using_array p initial final).isSome := by
  unfold validate_final_using_array
  by_cases h : initial ∈ p.init_list ∧ final ∈ p.fin_list
  · simp only [h, if_pos]
    have hi : listIndex p.init_list initial < p.ar.length := by
      rw [hp.1]; exact listIndex_lt_length _ _ h.1
    have hrow := List.get?_eq_get hi
    rw [hrow]
    have hmem : p.ar.get ⟨listIndex p.init_list initial, hi⟩ ∈ p.ar := p.ar.get_mem _ _
    have hlen : (p.ar.get ⟨listIndex p.init_list initial, hi⟩).length = p.fin_list.length :=
      hp.2 _ hmem
    have hf : listIndex p.fin_list final < (p.ar.get ⟨listIndex p.init_list initial, hi⟩).length := by
      rw [hlen]; exact listIndex_lt_length _ _ h.2
    have hcell := List.get?_eq_get hf
    rw [Option.some_bind, hcell]
    rfl
  · simp [h]


/-! ### Claim C9: totality of the validity-table lookup -/

/-- C9: for every pair of strings, `validate_final_using_array` returns
`False` (and touches no matrix cell) whenever the initial is not in the
initial list or the final is not in the final list, and under the data-model
invariant that the matrix is `|initials| × |finals|` every lookup lands in
range — `none` (the embedded `IndexError`) is never produced. -/
theorem claim_C9 (p : MethodParams) (initial final : List Char) :
    ((initial ∉ p.init_list ∨ final ∉ p.fin_list) →
      validate_final_using_array p initial final = some false) ∧
    (RectParams p → (validate_final_using_array p initial final).isSome) := by
  constructor
  · intro h
    unfold validate_final_using_array
    rw [if_neg]
    intro hc
    rcases h with h | h
    · exact h hc.1
    · exact h hc.2
  · intro hp
    exact validate_lookup_isSome p hp initial final


/-- Witness for C9 at the demonstration Pinyin table: `zz` is no initial, so
the lookup is `some false`; the table is rectangular, so the lookup of a
present pair is `some _`. -/
theorem claim_C9_witness :
    validate_final_using_array pyDemoParams (chars ("zz")) (chars ("a")) = some false ∧
    (validate_final_using_array pyDemoParams (chars ("ch")) (chars ("an"))).isSome :=
  ⟨(claim_C9 pyDemoParams (chars ("zz")) (chars ("a"))).1 (Or.inl (by decide)),
   (claim_C9 pyDemoParams (chars ("ch")) (chars ("an"))).2 (by constructor <;> decide)⟩


/-! ### Claim C7: syllable counting -/

/-- C7 failing input: under the shipped `RoManTools/utils.py`, the word
`"xyz"` contains an invalid syllable yet `syllable_count` reports its length
`1`; the function's own inline comment ("otherwise return 0"), the spec, the
sibling implementations (`src/utils.py`, `Tools/utils.py`) and the test suite
(`tests/test_romanization.py::test_syllable_count`, expecting `0` for the
invalid words) all require `0`. -/
theorem claim_C7 :
    syllable_count pyDemoParams (chars ("xyz")) = [1] ∧
    ((process_text pyDemoParams false (chars ("xyz"))).all fun ch =>
      match ch with
      | Chunk.word syls => !syls.all (·.valid)
      | Chunk.lit _ => true) = true ∧
    syllable_count_documented pyDemoParams (chars ("xyz")) = [0] := by
  refine ⟨?_, ?_, ?_⟩ <;> decide


/-! ### Claim C8: converter lookup postcondition -/

/-- `List.find?` returns the element at the first index satisfying the
predicate. -/
theorem find?_first {α : Type} (p : α → Bool) (l : List α) (i : Nat) (hi : i < l.length)
    (hp : p (l.get ⟨i, hi⟩) = true)
    (hfirst : ∀ j (hj : j < l.length), j < i → p (l.get ⟨j, hj⟩) = false) :
    l.find? p = some (l.get ⟨i, hi⟩) := by
  induction l generalizing i with
  | nil => cases hi
  | cons a as ih =>
    cases i with
    | zero =>
      have hpa : p a = true := hp
      simp [List.find?, hpa]
    | succ j =>
      have ha : p a = false := hfirst 0 (Nat.zero_lt_succ _) (Nat.succ_pos _)
      have hj : j < as.length := Nat.lt_of_succ_lt_succ hi
      simp only [List.find?, ha]
      exact ih j hj hp fun k hk hki =>
        hfirst (k + 1) (Nat.succ_lt_succ hk) (Nat.succ_lt_succ hki)


/-- C8: the per-syllable converter returns the target of the first row whose
source spelling matches case-insensitively; a matching row with empty target
marked rare yields the original text plus the rare marker; no match yields
the original text plus `"(!)"`. It is total, and — provided every row with an
empty target spelling is marked rare, as the spec describes the table — it
never returns the empty string. -/
theorem claim_C8 (rows : List ConvRow) (cf ct : Method) (s : List Char) :
    ((∀ row ∈ rows, rowGet row ct = [] → row.meta = chars ("rare")) →
      converter_convert rows cf ct s ≠ []) ∧
    ((∀ row ∈ rows, toLower (rowGet row cf) ≠ toLower s) →
      converter_convert rows cf ct s = s ++ chars ("(!)")) ∧
    (∀ i (hi : i < rows.length),
      toLower (rowGet (rows.get ⟨i, hi⟩) cf) = toLower s →
      (∀ j (hj : j < rows.length), j < i → toLower (rowGet (rows.get ⟨j, hj⟩) cf) ≠ toLower s) →
      converter_convert rows cf ct s =
        (if rowGet (rows.get ⟨i, hi⟩) ct = [] ∧ (rows.get ⟨i, hi⟩).meta = chars ("rare")
         then s ++ chars ("(!rare Pinyin!)")
         else rowGet (rows.get ⟨i, hi⟩) ct)) := by
  refine ⟨?_, ?_, ?_⟩
  · intro hres
    unfold converter_convert
    cases hfind : rows.find? (fun row => toLower (rowGet row cf) = toLower s) with
    | none => exact fun h => absurd (List.append_eq_nil.mp h).2 (by decide)
    | some row =>
      have hmem : row ∈ rows := List.mem_of_find?_eq_some hfind
      by_cases hempty : rowGet row ct = [] ∧ row.meta = chars ("rare")
      · show (if rowGet row ct = [] ∧ row.meta = chars ("rare")
            then s ++ chars ("(!rare Pinyin!)") else rowGet row ct) ≠ []
        rw [if_pos hempty]
        exact fun h => absurd (List.append_eq_nil.mp h).2 (by decide)
      · show (if rowGet row ct = [] ∧ row.meta = chars ("rare")
            then s ++ chars ("(!rare Pinyin!)") else rowGet row ct) ≠ []
        rw [if_neg hempty]
        intro hnil
        exact hempty ⟨hnil, hres row hmem hnil⟩
  · intro hmiss
    unfold converter_convert
    have : rows.find? (fun row => toLower (rowGet row cf) = toLower s) = none := by
      rw [List.find?_eq_none]
      intro row hrow
      simpa using hmiss row hrow
    rw [this]
  · intro i hi hhit hfirst
    unfold converter_convert
    have hfind : rows.find? (fun row => toLower (rowGet row cf) = toLower s) =
        some (rows.get ⟨i, hi⟩) :=
      find?_first _ rows i hi (by simpa using hhit)
        (fun j hj hji => by simpa using hfirst j hj hji)
    rw [hfind]


/-- Witness for C8 on the demonstration rows: a rare hit is non-empty, a miss
gets the error suffix, and the first matching row decides the result. -/
theorem claim_C8_witness :
    converter_convert demoRows Method.py Method.wg (chars ("shek")) ≠ [] ∧
    converter_convert demoRows Method.py Method.wg (chars ("nope")) =
      chars ("nope") ++ chars ("(!)") ∧
    converter_convert demoRows Method.py Method.wg (chars ("ZHONG")) =
      (if rowGet (demoRows.get ⟨0, by decide⟩) Method.wg = [] ∧
          (demoRows.get ⟨0, by decide⟩).meta = chars ("rare")
       then chars ("ZHONG") ++ chars ("(!rare Pinyin!)")
       else rowGet (demoRows.get ⟨0, by decide⟩) Method.wg) :=
  ⟨(claim_C8 demoRows Method.py Method.wg (chars ("shek"))).1 (by decide),
   (claim_C8 demoRows Method.py Method.wg (chars ("nope"))).2.1 (by decide),
   (claim_C8 demoRows Method.py Method.wg (chars ("ZHONG"))).2.2 0 (by decide) (by decide)
     (fun j hj hj0 => absurd hj0 (Nat.not_lt_zero j))⟩


/-- C10: with `error_skip` unset (the `convert_text` path) `Word.convert`
sends every syllable of every word to the converter — validity, contraction
status and stopword membership are never consulted — so `convert_text` can
emit the converter's error suffix; concretely, converting the invalid
stopword `"xyz"` still yields `"xyz(!)"`, while the cherry-pick gate
(`error_skip` set) marks the same word non-convertible. -/
theorem claim_C10 :
    (∀ (ctx : WordCtx) (syls : List Syl), ctx.error_skip = false →
      convert_step ctx syls = syls.map fun s => (wconvert ctx s.full_syllable, s)) ∧
    convert_text pyDemoParams stopCtx (chars ("xyz")) = chars ("xyz(!)") ∧
    is_convertable { stopCtx with error_skip := true }
      ((split_word Method.py (chars ("xyz"))).map (parseWord pyDemoParams)).flatten = false := by
  refine ⟨?_, by decide, by decide⟩
  intro ctx syls h
  simp [convert_step, h]


/-- Witness for C10: the unconditional conversion map at a concrete context
and word. -/
theorem claim_C10_witness :
    convert_step stopCtx (parseWord pyDemoParams (chars ("xyz"))) =
      (parseWord pyDemoParams (chars ("xyz"))).map
        fun s => (wconvert stopCtx s.full_syllable, s) :=
  (claim_C10).1 stopCtx _ rfl


/-! ### Claim C2: the greedy "ng" tie-break -/

/-- C2: at an `n` immediately followed by `g`, `handle_consonant_case`
returns the final through the `g` (`text[:i+2]`, ending in `"ng"`) exactly
when the `g` closes the text (one character — the `g` itself — remains after
the `n`), or the character two positions ahead is not a vowel, or the
`n`-only final is not valid with the current initial; otherwise it stops
after the `n` (`text[:i+1]`), leaving `g…` for the next syllable.  On the
spec-modelled Pinyin fragment, `"changan"` therefore segments as
`[["chan","gan"]]`. -/
theorem claim_C2 :
    (∀ (p : MethodParams) (t : List Char) (i : Nat) (initial : List Char),
      t.get? i = some 'n' → t.get? (i + 1) = some 'g' →
      ((handle_consonant_case p t i initial = t.take (i + 2) ↔
        (t.length = i + 2 ∨ (∃ c, t.get? (i + 2) = some c ∧ isVowel c = false) ∨
          validateB p initial (t.take (i + 1)) = false)) ∧
       (¬(t.length = i + 2 ∨ (∃ c, t.get? (i + 2) = some c ∧ isVowel c = false) ∨
          validateB p initial (t.take (i + 1)) = false) →
        handle_consonant_case p t i initial = t.take (i + 1)))) ∧
    segment_text pyDemoParams (chars ("changan")) =
      [Sum.inl [chars ("chan"), chars ("gan")]] := by
  refine ⟨?_, by decide⟩
  intro p t i initial hn hg
  obtain ⟨hilt, hie⟩ := List.get?_eq_some.mp hn
  obtain ⟨hglt, hge⟩ := List.get?_eq_some.mp hg
  have her : erSlice t i ≠ ['e', 'r'] := by
    unfold erSlice
    rcases Nat.eq_zero_or_pos i with hi0 | hipos
    · subst hi0
      rw [if_pos rfl]
      have : t.length ≠ 1 := by omega
      rw [if_neg this]
      intro hcon
      cases hcon
    · rw [if_neg (by omega)]
      intro hcon
      have h1 : ((t.drop (i - 1)).take 2).get? 1 = some 'r' := by rw [hcon]; rfl
      rw [List.get?_take (by omega), List.get?_drop] at h1
      have : i - 1 + 1 = i := by omega
      rw [this, hn] at h1
      cases h1
  have hgetn : t.getD i '?' = 'n' := by
    unfold List.getD
    rw [hn]
    rfl
  have hgetg : t.getD (i + 1) '?' = 'g' := by
    unfold List.getD
    rw [hg]
    rfl
  have hrem : 0 < t.length - i - 1 := by omega
  have hlen2 : i + 2 ≤ t.length := by omega
  have hng : (decide (0 < t.length - i - 1) && decide ('g' = 'g')) = true := by
    simp [hrem]
  have hcond : (decide (t.length - i - 1 = 1) || !isVowel (t.getD (i + 2) '?')
      || !validateB p initial (t.take (i + 1))) = true ↔
      (t.length = i + 2 ∨ (∃ c, t.get? (i + 2) = some c ∧ isVowel c = false) ∨
        validateB p initial (t.take (i + 1)) = false) := by
    simp only [Bool.or_eq_true, decide_eq_true_eq, Bool.not_eq_true']
    constructor
    · rintro ((h1 | h2) | h3)
      · exact Or.inl (by omega)
      · rcases Nat.lt_or_ge (i + 2) t.length with hlt | hge2
        · refine Or.inr (Or.inl ⟨t.getD (i + 2) '?', ?_, h2⟩)
          unfold List.getD
          rw [List.get?_eq_get hlt]
          rfl
        · exact Or.inl (by omega)
      · exact Or.inr (Or.inr h3)
    · rintro (h1 | ⟨c, hc, hcv⟩ | h3)
      · exact Or.inl (Or.inl (by omega))
      · refine Or.inl (Or.inr ?_)
        have : t.getD (i + 2) '?' = c := by
          unfold List.getD
          rw [hc]
          rfl
        rw [this]
        exact hcv
      · exact Or.inr h3
  have htkne : t.take (i + 1) ≠ t.take (i + 2) := by
    intro hcon
    have h1 : (t.take (i + 1)).length = i + 1 := by
      rw [List.length_take]
      omega
    have h2 : (t.take (i + 2)).length = i + 2 := by
      rw [List.length_take]
      omega
    rw [hcon, h2] at h1
    omega
  have hresult : handle_consonant_case p t i initial =
      (if (decide (t.length - i - 1 = 1) || !isVowel (t.getD (i + 2) '?')
          || !validateB p initial (t.take (i + 1))) = true
       then t.take (i + 2) else t.take (i + 1)) := by
    unfold handle_consonant_case
    rw [if_neg her]
    unfold consonant_n_case
    rw [hgetn, if_pos rfl, hgetg, hng]
    simp only [Bool.true_and]
    by_cases hb : (decide (t.length - i - 1 = 1) || !isVowel (t.getD (i + 2) '?')
        || !validateB p initial (t.take (i + 1))) = true
    · rw [if_pos hb, if_pos hb]
    · rw [if_neg hb, if_neg hb, if_pos trivial]
  refine ⟨⟨?_, ?_⟩, ?_⟩
  · intro hres
    rw [hresult] at hres
    by_cases hb : (decide (t.length - i - 1 = 1) || !isVowel (t.getD (i + 2) '?')
        || !validateB p initial (t.take (i + 1))) = true
    · exact hcond.mp hb
    · rw [if_neg hb] at hres
      exact absurd hres htkne
  · intro hprop
    rw [hresult, if_pos (hcond.mpr hprop)]
  · intro hprop
    rw [hresult, if_neg fun hb => hprop (hcond.mp hb)]


/-- Witness for C2: on `"angan"` after initial `ch` (the state reached while
parsing `"changan"`), position 1 holds `n` followed by `g`, no tie-break
disjunct holds (a vowel follows the `g` and `ch+an` validates), so the final
stops after the `n`. -/
theorem claim_C2_witness :
    handle_consonant_case pyDemoParams (chars ("angan")) 1 (chars ("ch")) =
      (chars ("angan")).take 2 :=
  ((claim_C2).1 pyDemoParams (chars ("angan")) 1 (chars ("ch")) (by decide) (by decide)).2
    (by
      rintro (h1 | ⟨c, hc, hcv⟩ | h3)
      · exact absurd h1 (by decide)
      · rw [show ((chars ("angan")).get? 3) = some 'a' from rfl] at hc
        injection hc with hc
        subst hc
        exact absurd hcv (by decide)
      · exact absurd h3 (by decide))


/-! ### Claim C5: the convertibility test -/

/-- C5: under cherry-pick processing (`error_skip` set), a word is
convertible iff every syllable is valid, or all but the last are valid and
the last carries a leading apostrophe with its text in the closed contraction
set — and in either case only if the preview spelling is not a stopword; in
particular a fully valid word that spells a stopword is passed through
unconverted. -/
theorem claim_C5 (ctx : WordCtx) (syls : List Syl) (h1 : ctx.error_skip = true)
    (h2 : syls ≠ []) :
    (is_convertable ctx syls = true ↔
      ((syls.all (·.valid) = true ∨
        (syls.dropLast.all (·.valid) = true ∧
          ∃ lastS, syls.getLast? = some lastS ∧ lastS.has_apostrophe = true ∧
            lastS.full_syllable ∈ supported_contractions)) ∧
        preview_word syls ∉ ctx.stopwords)) ∧
    (syls.all (·.valid) = true → preview_word syls ∈ ctx.stopwords →
      convert_step ctx syls = syls.map fun s => (s.full_syllable, s)) := by
  have hlast : syls.getLast? = some (syls.getLast h2) := List.getLast?_eq_getLast syls h2
  constructor
  · unfold is_convertable all_valid is_contraction
    rw [h1, hlast]
    simp only [Bool.and_true, Bool.and_eq_true, Bool.or_eq_true, decide_eq_true_eq]
    constructor
    · rintro ⟨hv | ⟨hd, hl⟩, hs⟩
      · exact ⟨Or.inl hv, hs⟩
      · exact ⟨Or.inr ⟨hd, syls.getLast h2, rfl, hl.1, hl.2⟩, hs⟩
    · rintro ⟨hv | ⟨hd, lastS, heq, ha, hm⟩, hs⟩
      · exact ⟨Or.inl hv, hs⟩
      · refine ⟨Or.inr ⟨hd, ?_⟩, hs⟩
        injection heq with heq
        rw [heq]
        exact ⟨ha, hm⟩
  · intro hv hs
    have hic : is_convertable ctx syls = false := by
      unfold is_convertable
      simp [hs]
    simp [convert_step, h1, hic]


/-- Witness for C5: the fully valid word `changan`, spelling a stopword, is
passed through unconverted. -/
theorem claim_C5_witness :
    convert_step cherryStopCtx (parseWord pyDemoParams (chars ("changan"))) =
      (parseWord pyDemoParams (chars ("changan"))).map fun s => (s.full_syllable, s) :=
  (claim_C5 cherryStopCtx (parseWord pyDemoParams (chars ("changan"))) rfl
      (by decide)).2 (by decide) (by decide)


theorem needs_apostrophe_eq (prev curr : List Char) :
    needs_apostrophe prev curr =
      ((match prev.getLast? with
        | some pl => isVowel pl || (chars ("er")).isSuffixOf prev || decide (pl = 'n')
            || (chars ("ng")).isSuffixOf prev
        | none => false)
      && (match curr.head? with | some ch => isVowel ch | none => false)) := by
  unfold needs_apostrophe
  cases hp : prev.getLast? with
  | none => simp
  | some pl =>
    cases hc : curr.head? with
    | none => simp
    | some ch => cases hv : isVowel ch <;> simp [hv]


theorem claimed_py_separator_eq (prev c : List Char) :
    claimed_py_separator prev c = if needs_apostrophe prev c = true then ['\''] else [] := by
  unfold claimed_py_separator
  rw [needs_apostrophe_eq]


theorem append_syllables_py (ctx : WordCtx) (hpy : ctx.convert_to = Method.py)
    (contraction : Bool) (total : Nat) :
    ∀ (rest : List (List Char × Syl)) (prev : List Char) (i : Nat),
      (∀ e ∈ rest, e.2.valid = true) →
      append_syllables ctx contraction total prev i rest = claimed_py_join prev (rest.map (·.1)) := by
  intro rest
  induction rest with
  | nil => intro prev i _; rfl
  | cons e more ih =>
    intro prev i hval
    have hv : e.2.valid = true := hval e (List.mem_cons_self e more)
    unfold append_syllables claimed_py_join
    rw [hpy]
    simp only [List.map_cons, hv, if_true]
    rw [claimed_py_separator_eq]
    rw [ih e.1 (i + 1) fun x hx => hval x (List.mem_cons_of_mem e hx)]
    by_cases hna : needs_apostrophe prev e.1 = true
    · rw [if_pos hna, if_pos hna]
      simp
    · rw [if_neg hna, if_neg hna]
      simp


theorem append_syllables_wg (ctx : WordCtx) (hwg : ctx.convert_to = Method.wg)
    (contraction : Bool) (total : Nat) :
    ∀ (rest : List (List Char × Syl)) (prev : List Char) (i : Nat),
      append_syllables ctx contraction total prev i rest =
        claimed_wg_join contraction total i (rest.map (·.1)) := by
  intro rest
  induction rest with
  | nil => intro prev i; rfl
  | cons e more ih =>
    intro prev i
    unfold append_syllables claimed_wg_join
    rw [hwg]
    simp only [List.map_cons]
    rw [ih e.1 (i + 1)]
    by_cases hc : (contraction && decide (i = total - 1)) = true
    · rw [if_pos hc, if_pos hc]
      rfl
    · rw [if_neg hc, if_neg hc]
      rfl


/-- C6: for a convertible word, conversion into the apostrophe-based target
inserts an apostrophe before a (valid) syllable exactly when the previous
output syllable ends in a vowel, `"er"`, `"n"` or `"ng"` and the current one
begins with a vowel; conversion into the dash-based target separates every
boundary with a dash except the one before a preserved trailing contraction,
which gets an apostrophe. -/
theorem claim_C6 (ctx : WordCtx) (syls : List Syl) (e0 : List Char × Syl)
    (rest : List (List Char × Syl)) (hconv : is_convertable ctx syls = true) :
    (ctx.convert_to = Method.py → (∀ e ∈ rest, e.2.valid = true) →
      add_symbols ctx syls (e0 :: rest) = e0.1 ++ claimed_py_join e0.1 (rest.map (·.1))) ∧
    (ctx.convert_to = Method.wg →
      add_symbols ctx syls (e0 :: rest) =
        e0.1 ++ claimed_wg_join (is_contraction ctx syls) (e0 :: rest).length 1
          (rest.map (·.1))) := by
  constructor
  · intro hpy hval
    unfold add_symbols
    rw [if_pos hconv]
    show e0.1 ++ append_syllables ctx (is_contraction ctx syls) (e0 :: rest).length e0.1 1 rest =
      e0.1 ++ claimed_py_join e0.1 (rest.map (·.1))
    rw [append_syllables_py ctx hpy _ _ rest e0.1 1 hval]
  · intro hwg
    unfold add_symbols
    rw [if_pos hconv]
    show e0.1 ++ append_syllables ctx (is_contraction ctx syls) (e0 :: rest).length e0.1 1 rest =
      e0.1 ++ claimed_wg_join (is_contraction ctx syls) (e0 :: rest).length 1 (rest.map (·.1))
    rw [append_syllables_wg ctx hwg _ _ rest e0.1 1]


/-- Witness for C6: reassembling the converted syllables of the convertible
word `changan` under the dash-based target. -/
theorem claim_C6_witness :
    add_symbols wgTargetCtx (parseWord pyDemoParams (chars ("changan")))
        [(chars ("chan"), createSyllable pyDemoParams (chars ("chan"))),
         (chars ("gan"), createSyllable pyDemoParams (chars ("gan")))] =
      chars ("chan") ++ claimed_wg_join
        (is_contraction wgTargetCtx (parseWord pyDemoParams (chars ("changan")))) 2 1
        [chars ("gan")] :=
  (claim_C6 wgTargetCtx (parseWord pyDemoParams (chars ("changan")))
      (chars ("chan"), createSyllable pyDemoParams (chars ("chan")))
      [(chars ("gan"), createSyllable pyDemoParams (chars ("gan")))]
      (by decide)).2 rfl


/-! ### Claim C3: the ambiguous-boundary search (Wade-Giles) -/

/-- `List.find?` only depends on the predicate's values on the list. -/
theorem find?_ext {α : Type} (p q : α → Bool) (l : List α) (h : ∀ a ∈ l, p a = q a) :
    l.find? p = l.find? q := by
  induction l with
  | nil => rfl
  | cons a as ih =>
    simp only [List.find?]
    rw [h a (List.mem_cons_self a as)]
    cases q a with
    | true => rfl
    | false => exact ih fun x hx => h x (List.mem_cons_of_mem a hx)


/-- C3 counterexample: on the spec-modelled fragment where `a` and `ai` are
sentinel-valid Wade-Giles finals, the claimed policy segments `"aia"` at
length 2 (`"ai"` decomposes and the suffix `"a"` starts with a vowel), but
the code's `_can_form_valid_wg_syllables` rejects every suffix of length ≤ 1,
so `_find_wg_syllable_boundaries` returns the whole text unsegmented. -/
theorem claim_C3_counterexample :
    wg_boundaries_claimed wgDemoParams (chars ("aia")) = chars ("ai") ∧
    wg_boundaries wgDemoParams (chars ("aia")) = chars ("aia") ∧
    wg_boundaries wgDemoParams (chars ("aia")) ≠
      wg_boundaries_claimed wgDemoParams (chars ("aia")) := by
  refine ⟨by decide, by decide, by decide⟩


theorem can_form_eq_amended (p : MethodParams) (t : List Char) :
    can_form_valid_wg_syllables p t =
      (decide (2 ≤ t.length) && claimed_wg_can_begin p t) := by
  unfold can_form_valid_wg_syllables claimed_wg_can_begin
  by_cases h : t.length ≤ 1
  · rw [if_pos h]
    have : ¬ 2 ≤ t.length := by omega
    simp [this]
  · rw [if_neg h]
    have : 2 ≤ t.length := by omega
    simp [this]


/-- C3 amended: for a vowel-initial text (the only texts on which the engine
runs this search), prefix lengths are tried from 2 up in increasing order and
the first prefix satisfying the amended acceptance condition is returned; if
no length is accepted (and the text has length ≥ 2) the whole text is
returned as one unsegmented syllable, whose sentinel validation fails. -/
theorem claim_C3 (p : MethodParams) (t : List Char) (c : Char) (cs : List Char)
    (ht : t = c :: cs) (hv : isVowel c = true) :
    wg_boundaries p t =
      (match (List.range' 2 (t.length - 1)).find? (wg_accept_amended p t) with
       | some k => t.take k
       | none => t) ∧
    ((∀ k ∈ List.range' 2 (t.length - 1), wg_accept_amended p t k = false) →
      2 ≤ t.length →
      wg_boundaries p t = t ∧ validateB p ['ø'] t = false) := by
  have hpoint : ∀ k ∈ List.range' 2 (t.length - 1),
      (is_complete_wg_syllable_valid p (t.take k)
        && (decide (t.length ≤ k) || can_form_valid_wg_syllables p (t.drop k)))
        = wg_accept_amended p t k := by
    intro k hk
    have hk2 : 2 ≤ k := by
      rw [List.mem_range'] at hk
      omega
    have hcomp : is_complete_wg_syllable_valid p (t.take k) = claimed_wg_struct p (t.take k) := by
      unfold is_complete_wg_syllable_valid claimed_wg_struct
      have htk : t.take k = c :: cs.take (k - 1) := by
        rw [ht]
        cases k with
        | zero => omega
        | succ j => rfl
      rw [htk]
      simp only [hv, Bool.true_and]
    rw [hcomp, can_form_eq_amended]
    rfl
  have hfind : wg_boundaries p t =
      (match (List.range' 2 (t.length - 1)).find? (wg_accept_amended p t) with
       | some k => t.take k
       | none => t) := by
    unfold wg_boundaries
    rw [find?_ext _ (wg_accept_amended p t) _ hpoint]
  refine ⟨hfind, ?_⟩
  intro hnone hlen
  have hfn : (List.range' 2 (t.length - 1)).find? (wg_accept_amended p t) = none := by
    rw [List.find?_eq_none]
    intro k hk
    rw [hnone k hk]
    exact Bool.false_ne_true
  constructor
  · rw [hfind, hfn]
  · have hmem : t.length ∈ List.range' 2 (t.length - 1) := by
      rw [List.mem_range']
      exact ⟨t.length - 2, by omega, by omega⟩
    have := hnone t.length hmem
    unfold wg_accept_amended at this
    rw [Bool.and_eq_false_iff] at this
    rcases this with h | h
    · unfold claimed_wg_struct at h
      rw [List.take_length] at h
      rw [Bool.or_eq_false_iff] at h
      exact h.2
    · exfalso
      rw [Bool.or_eq_false_iff] at h
      have := h.1
      simp at this


/-- Witness for C3 (amended): on the modelled fragment, no length is accepted
for `"aia"`, the whole text comes back and fails sentinel validation. -/
theorem claim_C3_witness :
    wg_boundaries wgDemoParams (chars ("aia")) = chars ("aia") ∧
    validateB wgDemoParams ['ø'] (chars ("aia")) = false :=
  (claim_C3 wgDemoParams (chars ("aia")) 'a' (chars ("ia")) (by decide) (by decide)).2
    (by decide) (by decide)


/-! ### Progress of the syllable engine (claim C1) -/

/-- Character-level facts about the word-segment alphabet, checked by
enumeration of the 63 characters. -/
theorem segChar_facts : ∀ c ∈ segChars,
    segChars.contains (toLowerChar c) = true ∧
    isSym (toLowerChar c) = isSym c ∧
    isLetter (toLowerChar c) = isLetter c ∧
    (isLetter c = true → isSym c = false) ∧
    (isVowel c = true → isApos c = false) ∧
    c ≠ 'ø' := by decide

theorem take_ne_nil (t : List Char) (k : Nat) (ht : t ≠ []) (hk : k ≠ 0) :
    t.take k ≠ [] := by
  rw [Ne, List.take_eq_nil_iff]
  rintro (h | h)
  exacts [hk h, ht h]

theorem noConsecSym_tail (c : Char) (l : List Char) (h : noConsecSym (c :: l) = true) :
    noConsecSym l = true := by
  cases l with
  | nil => rfl
  | cons d rest =>
    unfold noConsecSym at h
    simp only [Bool.and_eq_true] at h
    exact h.2

theorem noConsecSym_head (c d : Char) (rest : List Char)
    (h : noConsecSym (c :: d :: rest) = true) (hc : isSym c = true) : isSym d = false := by
  unfold noConsecSym at h
  simp only [Bool.and_eq_true] at h
  have h1 := h.1
  rw [Bool.not_eq_true'] at h1
  cases hd : isSym d
  · rfl
  · rw [hc, hd] at h1
    cases h1

theorem noConsecSym_drop (t : List Char) (n : Nat) (h : noConsecSym t = true) :
    noConsecSym (t.drop n) = true := by
  induction n generalizing t with
  | zero => exact h
  | succ m ih =>
    cases t with
    | nil => exact h
    | cons c cs => exact ih cs (noConsecSym_tail c cs h)

theorem all_drop (P : Char → Bool) (t : List Char) (n : Nat) (h : t.all P = true) :
    (t.drop n).all P = true := by
  induction n generalizing t with
  | zero => exact h
  | succ m ih =>
    cases t with
    | nil => exact h
    | cons c cs =>
      simp only [List.all_cons, Bool.and_eq_true] at h
      exact ih cs h.2

theorem getLast?_of_suffix (l₁ l₂ : List Char) (h : l₁ <:+ l₂) (hne : l₁ ≠ []) :
    l₂.getLast? = l₁.getLast? := by
  obtain ⟨pre, rfl⟩ := h
  rw [List.getLast?_append]
  cases hl : l₁.getLast? with
  | none => exact absurd (List.getLast?_eq_none.mp hl) hne
  | some x => rfl

theorem drop_succ_of_drop_cons (t : List Char) (i : Nat) (c : Char) (cs : List Char)
    (h : c :: cs = t.drop i) : cs = t.drop (i + 1) := by
  have h1 : (t.drop i).drop 1 = t.drop (i + 1) := List.drop_drop 1 i t
  rw [← h1, ← h]
  rfl

/-- `Syllable._find_initial` never yields an empty initial on non-empty text
whose head (for the non-`wg` strategy) is not an apostrophe. -/
theorem find_initial_go_ne_nil (p : MethodParams) (t : List Char) (ht : t ≠ []) :
    ∀ (rest : List Char) (i : Nat), rest = t.drop i →
      (p.method ≠ Method.wg → i = 0 → ∀ c, t.head? = some c → isApos c = false) →
      find_initial_go p t i rest ≠ [] := by
  intro rest
  induction rest with
  | nil =>
    intro i _ _
    exact ht
  | cons c cs ih =>
    intro i hrest hhead
    unfold find_initial_go
    by_cases hv : isVowel c = true
    · rw [if_pos hv]
      by_cases hi : i = 0
      · rw [if_pos hi]
        exact (by decide : (['ø'] : List Char) ≠ [])
      · rw [if_neg hi]
        exact take_ne_nil t i ht hi
    · rw [if_neg hv]
      by_cases ha : isApos c = true
      · rw [if_pos ha]
        by_cases hm : p.method = Method.wg
        · rw [if_pos hm]
          simp
        · rw [if_neg hm]
          have hi : i ≠ 0 := by
            intro hi0
            subst hi0
            rw [List.drop_zero] at hrest
            have hhd : t.head? = some c := by
              rw [← hrest]
              rfl
            have := hhead hm rfl c hhd
            rw [ha] at this
            cases this
          exact take_ne_nil t i ht hi
      · rw [if_neg ha]
        exact ih (i + 1) (drop_succ_of_drop_cons t i c cs hrest)
          (fun _ h => absurd h (Nat.succ_ne_zero i))

/-- Away from index 0, `_find_initial` cannot produce the sentinel when the
text uses only word-segment characters. -/
theorem find_initial_go_ne_sentinel (p : MethodParams) (t : List Char)
    (hall : ∀ c ∈ t, segChars.contains c = true) :
    ∀ (rest : List Char) (i : Nat), rest = t.drop i → 1 ≤ i →
      find_initial_go p t i rest ≠ ['ø'] := by
  have hnot : ('ø' : Char) ∉ t := by
    intro hmem
    have := hall _ hmem
    exact absurd this (by decide)
  have htake : ∀ k, t.take k ≠ ['ø'] := by
    intro k heq
    exact hnot (List.take_subset k t (by rw [heq]; exact List.mem_singleton.mpr rfl))
  intro rest
  induction rest with
  | nil =>
    intro i _ _ heq
    have ht : t = ['ø'] := heq
    exact hnot (by rw [ht]; exact List.mem_singleton.mpr rfl)
  | cons c cs ih =>
    intro i hrest hi
    unfold find_initial_go
    by_cases hv : isVowel c = true
    · rw [if_pos hv, if_neg (by omega)]
      exact htake i
    · rw [if_neg hv]
      by_cases ha : isApos c = true
      · rw [if_pos ha]
        by_cases hm : p.method = Method.wg
        · rw [if_pos hm]
          intro heq
          have h1 : (t.take i ++ ['\'']).getLast? = some '\'' := by
            rw [List.getLast?_append]
            rfl
          rw [heq] at h1
          exact absurd h1 (by decide)
        · rw [if_neg hm]
          exact htake i
      · rw [if_neg ha]
        exact ih (i + 1) (drop_succ_of_drop_cons t i c cs hrest) (by omega)

/-- If `_find_initial` reports "no initial", the text starts with a vowel. -/
theorem find_initial_sentinel_head (p : MethodParams) (t : List Char)
    (hall : ∀ c ∈ t, segChars.contains c = true) (h : find_initial p t = ['ø']) :
    ∃ c cs, t = c :: cs ∧ isVowel c = true := by
  unfold find_initial at h
  cases t with
  | nil => cases h
  | cons c cs =>
    unfold find_initial_go at h
    by_cases hv : isVowel c = true
    · exact ⟨c, cs, rfl, hv⟩
    · rw [if_neg hv] at h
      by_cases ha : isApos c = true
      · rw [if_pos ha] at h
        by_cases hm : p.method = Method.wg
        · rw [if_pos hm, List.take_zero, List.nil_append] at h
          exact absurd h (by decide)
        · rw [if_neg hm, List.take_zero] at h
          cases h
      · rw [if_neg ha] at h
        exact absurd h (find_initial_go_ne_sentinel p (c :: cs) hall cs 1 rfl (le_refl 1))

/-- The successful results of `handle_vowel_case`: the whole text, or the
text up to a non-initial vowel position. -/
theorem handle_vowel_case_some (p : MethodParams) (t : List Char) (i : Nat)
    (initial f : List Char) (h : handle_vowel_case p t i initial = some f) :
    f = t ∨ (i ≠ 0 ∧ f = t.take i) := by
  unfold handle_vowel_case at h
  by_cases h1 : i + 1 = t.length
  · rw [if_pos h1] at h
    injection h with h
    exact Or.inl h.symm
  · rw [if_neg h1] at h
    by_cases h2 : (p.fin_list.filter fun fi =>
        (t.take (i + 1)).isPrefixOf fi && validateB p initial fi).isEmpty = true
    · rw [if_pos h2] at h
      by_cases h3 : i = 0
      · rw [if_pos h3] at h
        cases h
      · rw [if_neg h3] at h
        injection h with h
        exact Or.inr ⟨h3, h.symm⟩
    · rw [if_neg h2] at h
      cases h

theorem consonant_n_case_ne_nil (p : MethodParams) (t : List Char) (i : Nat)
    (initial : List Char) (rem : Nat) (ht : t ≠ []) (hi : 1 ≤ i) :
    consonant_n_case p t i initial rem ≠ [] := by
  simp only [consonant_n_case]
  split_ifs <;> exact take_ne_nil t _ ht (by omega)

theorem handle_consonant_case_ne_nil (p : MethodParams) (t : List Char) (i : Nat)
    (initial : List Char) (ht : t ≠ []) (hi : 1 ≤ i) :
    handle_consonant_case p t i initial ≠ [] := by
  simp only [handle_consonant_case]
  split_ifs <;> first
    | exact take_ne_nil t _ ht (by omega)
    | exact consonant_n_case_ne_nil p t i initial _ ht hi

/-- The Pinyin final extraction returns a non-empty final provided scanning
starts at a vowel (which is the case whenever the initial was the sentinel). -/
theorem py_find_final_go_ne_nil (p : MethodParams) (t : List Char) (initial : List Char)
    (ht : t ≠ []) :
    ∀ (rest : List Char) (i : Nat), rest = t.drop i →
      (i = 0 → ∀ c, rest.head? = some c → isVowel c = true) →
      py_find_final_go p t initial i rest ≠ [] := by
  intro rest
  induction rest with
  | nil =>
    intro i _ _
    exact ht
  | cons c cs ih =>
    intro i hrest hhead
    unfold py_find_final_go
    by_cases hv : isVowel c = true
    · rw [if_pos hv]
      cases hvc : handle_vowel_case p t i initial with
      | some f =>
        show f ≠ []
        rcases handle_vowel_case_some p t i initial f hvc with h | ⟨hi, h⟩
        · rw [h]
          exact ht
        · rw [h]
          exact take_ne_nil t i ht hi
      | none =>
        show py_find_final_go p t initial (i + 1) cs ≠ []
        exact ih (i + 1) (drop_succ_of_drop_cons t i c cs hrest)
          (fun h => absurd h (Nat.succ_ne_zero i))
    · rw [if_neg hv]
      have hi : 1 ≤ i := by
        rcases Nat.eq_zero_or_pos i with h0 | h1
        · exact absurd (hhead h0 c rfl) hv
        · exact h1
      exact handle_consonant_case_ne_nil p t i initial ht hi

theorem segChar_mem (c : Char) (h : segChars.contains c = true) : c ∈ segChars := by
  simpa using h

theorem firstAposIdx_zero (t : List Char) (h : firstAposIdx t = some 0) :
    ∃ c cs, t = c :: cs ∧ isApos c = true := by
  cases t with
  | nil => cases h
  | cons c cs =>
    unfold firstAposIdx at h
    by_cases ha : isApos c = true
    · exact ⟨c, cs, rfl, ha⟩
    · rw [if_neg ha] at h
      cases hx : firstAposIdx cs with
      | none =>
        rw [hx] at h
        cases h
      | some j =>
        rw [hx] at h
        injection h with h
        exact absurd h (Nat.succ_ne_zero j)

theorem wg_boundaries_shape (p : MethodParams) (t : List Char) :
    wg_boundaries p t = t ∨ ∃ k, 2 ≤ k ∧ wg_boundaries p t = t.take k := by
  unfold wg_boundaries
  cases hf : (List.range' 2 (t.length - 1)).find? (fun k =>
      is_complete_wg_syllable_valid p (t.take k)
        && (decide (t.length ≤ k) || can_form_valid_wg_syllables p (t.drop k))) with
  | none => exact Or.inl rfl
  | some k =>
    refine Or.inr ⟨k, ?_, rfl⟩
    have hmem := List.mem_of_find?_eq_some hf
    rw [List.mem_range'] at hmem
    obtain ⟨j, _, hj⟩ := hmem
    omega

theorem wg_find_final_sentinel_ne_nil (p : MethodParams) (t : List Char) (ht : t ≠ [])
    (hhead : ∀ c, t.head? = some c → isApos c = false) :
    wg_find_final p t ['ø'] ≠ [] := by
  unfold wg_find_final
  cases hf : firstAposIdx t with
  | some i =>
    have hi : i ≠ 0 := by
      intro h0
      subst h0
      obtain ⟨c, cs, rfl, hc⟩ := firstAposIdx_zero t hf
      have := hhead c rfl
      rw [hc] at this
      cases this
    exact take_ne_nil t i ht hi
  | none =>
    rw [if_neg (by simp)]
    rcases wg_boundaries_shape p t with h | ⟨k, hk, h⟩
    · rw [h]
      exact ht
    · rw [h]
      exact take_ne_nil t k ht (by omega)

theorem find_initial_final_sentinel (p : MethodParams) (t : List Char)
    (hs : find_initial p t = ['ø']) :
    find_initial_final p t =
      ([], find_final p t ['ø'], find_final p t ['ø'],
        t.drop (find_final p t ['ø']).length) := by
  simp only [find_initial_final]
  rw [hs, if_pos rfl]

theorem find_initial_final_nonsentinel (p : MethodParams) (t : List Char)
    (hs : find_initial p t ≠ ['ø']) :
    find_initial_final p t =
      (find_initial p t,
       find_final p (t.drop (find_initial p t).length) (find_initial p t),
       find_initial p t ++
         find_final p (t.drop (find_initial p t).length) (find_initial p t),
       t.drop (find_initial p t ++
         find_final p (t.drop (find_initial p t).length) (find_initial p t)).length) := by
  simp only [find_initial_final]
  rw [if_neg hs]

theorem find_initial_final_remainder (p : MethodParams) (t : List Char) :
    (find_initial_final p t).2.2.2 = t.drop (find_initial_final p t).2.2.1.length := by
  by_cases hs : find_initial p t = ['ø']
  · rw [find_initial_final_sentinel p t hs]
  · rw [find_initial_final_nonsentinel p t hs]

/-- The full syllable assembled by `_find_initial_final` is non-empty on any
non-empty word-segment text whose head (for the non-wg strategy) is not an
apostrophe. -/
theorem find_initial_final_full_ne_nil (p : MethodParams) (t : List Char) (ht : t ≠ [])
    (hall : ∀ c ∈ t, segChars.contains c = true)
    (hheadpy : p.method ≠ Method.wg → ∀ c, t.head? = some c → isApos c = false) :
    (find_initial_final p t).2.2.1 ≠ [] := by
  by_cases hs : find_initial p t = ['ø']
  · rw [find_initial_final_sentinel p t hs]
    show find_final p t ['ø'] ≠ []
    obtain ⟨c, cs, rfl, hv⟩ := find_initial_sentinel_head p t hall hs
    have hna : isApos c = false :=
      (segChar_facts c (segChar_mem c (hall c (List.mem_cons_self c cs)))).2.2.2.2.1 hv
    unfold find_final
    cases hm : p.method with
    | py =>
      unfold py_find_final
      refine py_find_final_go_ne_nil p (c :: cs) ['ø'] ht (c :: cs) 0 rfl ?_
      intro _ x hx
      injection hx with hx
      rw [← hx]
      exact hv
    | wg =>
      refine wg_find_final_sentinel_ne_nil p (c :: cs) ht ?_
      intro x hx
      injection hx with hx
      rw [← hx]
      exact hna
  · rw [find_initial_final_nonsentinel p t hs]
    show find_initial p t ++ _ ≠ []
    intro hcon
    rcases List.append_eq_nil.mp hcon with ⟨h1, _⟩
    have hinit : find_initial p t ≠ [] := by
      unfold find_initial
      exact find_initial_go_ne_nil p t ht t 0 rfl
        (fun hm _ c hc => hheadpy hm c hc)
    exact hinit h1

theorem createSyllable_text_eq (p : MethodParams) (text : List Char) (c0 : Char)
    (rest : List Char) (hlow : toLower text = c0 :: rest) :
    (createSyllable p text).text =
      (if (isApos c0 && decide (p.method ≠ Method.wg)) || (!isApos c0 && isDash c0)
       then rest else c0 :: rest) := by
  simp only [createSyllable, hlow, List.head?, List.tail_cons]

theorem createSyllable_full_eq (p : MethodParams) (text : List Char) :
    (createSyllable p text).full_syllable =
      (find_initial_final p (createSyllable p text).text).2.2.1 := rfl

theorem createSyllable_remainder_eq (p : MethodParams) (text : List Char) :
    (createSyllable p text).remainder =
      (find_initial_final p (createSyllable p text).text).2.2.2 := rfl

theorem noConsecSym_toLower (t : List Char) (hall : ∀ c ∈ t, segChars.contains c = true)
    (h : noConsecSym t = true) : noConsecSym (toLower t) = true := by
  induction t with
  | nil => rfl
  | cons c cs ih =>
    cases cs with
    | nil => rfl
    | cons d rest =>
      have hc := (segChar_facts c (segChar_mem c (hall c (by simp)))).2.1
      have hd := (segChar_facts d (segChar_mem d (hall d (by simp)))).2.1
      unfold noConsecSym at h
      simp only [Bool.and_eq_true] at h
      have htl := ih (fun x hx => hall x (List.mem_cons_of_mem c hx)) h.2
      show (!(isSym (toLowerChar c) && isSym (toLowerChar d))
        && noConsecSym (toLowerChar d :: toLower rest)) = true
      rw [hc, hd]
      simp only [Bool.and_eq_true]
      exact ⟨h.1, htl⟩

/-- Decomposition of the word-segment invariant. -/
theorem wordSegOK_parts (t : List Char) (h : wordSegOK t = true) :
    (∀ c ∈ t, segChars.contains c = true) ∧ noConsecSym t = true ∧
    (match t.getLast? with | some c => isLetter c | none => false) = true ∧ t ≠ [] := by
  unfold wordSegOK at h
  simp only [Bool.and_eq_true] at h
  refine ⟨List.all_eq_true.mp h.1.1, h.1.2, h.2, ?_⟩
  intro hnil
  subst hnil
  simp at h

/-- After lowering and first-character handling, the processed text of a
word-segment syllable is non-empty, stays inside the segment alphabet, keeps
the no-adjacent-symbols shape and its final letter, is a suffix of the
lowered input, and (for the non-wg strategy) does not start with an
apostrophe. -/
theorem processed_facts (p : MethodParams) (text : List Char) (h : wordSegOK text = true) :
    (createSyllable p text).text ≠ [] ∧
    (∀ c ∈ (createSyllable p text).text, segChars.contains c = true) ∧
    noConsecSym (createSyllable p text).text = true ∧
    (match (createSyllable p text).text.getLast? with
      | some c => isLetter c | none => false) = true ∧
    (p.method ≠ Method.wg → ∀ c, (createSyllable p text).text.head? = some c →
      isApos c = false) ∧
    (createSyllable p text).text <:+ toLower text := by
  obtain ⟨hall, hnc, hlast, hne⟩ := wordSegOK_parts text h
  have hallL : ∀ c ∈ toLower text, segChars.contains c = true := by
    intro c hc
    rw [toLower, List.mem_map] at hc
    obtain ⟨a, ha, rfl⟩ := hc
    exact (segChar_facts a (segChar_mem a (hall a ha))).1
  have hncL : noConsecSym (toLower text) = true := noConsecSym_toLower text hall hnc
  have hlastL : (match (toLower text).getLast? with
      | some c => isLetter c | none => false) = true := by
    rw [toLower, List.getLast?_map]
    cases hg : text.getLast? with
    | none => rw [hg] at hlast; cases hlast
    | some a =>
      rw [hg] at hlast
      have ha : a ∈ text := by
        obtain ⟨hne', heq⟩ := List.mem_getLast?_eq_getLast (Option.mem_def.mpr hg)
        rw [heq]
        exact List.getLast_mem hne'
      show isLetter (toLowerChar a) = true
      rw [(segChar_facts a (segChar_mem a (hall a ha))).2.2.1]
      exact hlast
  cases hlow : toLower text with
  | nil =>
    exfalso
    have : text = [] := by
      have := congrArg List.length hlow
      rw [toLower, List.length_map] at this
      exact List.length_eq_zero.mp this
    exact hne this
  | cons c0 rest =>
    have htext := createSyllable_text_eq p text c0 rest hlow
    rw [hlow] at hallL hncL hlastL
    by_cases hstrip : ((isApos c0 && decide (p.method ≠ Method.wg))
        || (!isApos c0 && isDash c0)) = true
    · rw [if_pos hstrip] at htext
      have hsym : isSym c0 = true := by
        have hstrip' := hstrip
        rw [Bool.or_eq_true] at hstrip'
        rcases hstrip' with h1 | h1
        · simp only [Bool.and_eq_true] at h1
          simp [isSym, h1.1]
        · simp only [Bool.and_eq_true] at h1
          simp [isSym, h1.2]
      have hrne : rest ≠ [] := by
        intro hrnil
        subst hrnil
        have hl : isLetter c0 = true := hlastL
        have := (segChar_facts c0 (segChar_mem c0 (hallL c0 (by simp)))).2.2.2.1 hl
        rw [hsym] at this
        cases this
      have hlastR : (c0 :: rest).getLast? = rest.getLast? :=
        getLast?_of_suffix rest (c0 :: rest) (List.tail_suffix (c0 :: rest)) hrne
      rw [htext]
      refine ⟨hrne, ?_, noConsecSym_tail c0 rest hncL, ?_, ?_, ?_⟩
      · intro c hc
        exact hallL c (List.mem_cons_of_mem c0 hc)
      · rw [← hlastR]
        exact hlastL
      · intro _ c hc
        cases rest with
        | nil => cases hc
        | cons d rest' =>
          injection hc with hc
          rw [← hc]
          have hsd : isSym d = false := noConsecSym_head c0 d rest' hncL hsym
          simp only [isSym, Bool.or_eq_false_iff] at hsd
          exact hsd.1
      · exact List.tail_suffix (c0 :: rest)
    · rw [if_neg hstrip] at htext
      rw [htext]
      refine ⟨List.cons_ne_nil c0 rest, hallL, hncL, hlastL, ?_, ?_⟩
      · intro hm c hc
        injection hc with hc
        rw [← hc]
        rw [Bool.not_eq_true, Bool.or_eq_false_iff] at hstrip
        have h1 := hstrip.1
        rw [Bool.and_eq_false_iff] at h1
        rcases h1 with h1 | h1
        · exact h1
        · rw [decide_eq_false_iff_not] at h1
          exact absurd hm h1
      · exact List.suffix_refl (c0 :: rest)

/-- Progress of one syllable creation on a word segment: non-empty full
syllable; the remainder is the processed text after it, a suffix of the
lowered input, strictly shorter than the input. -/
theorem syllable_progress (p : MethodParams) (text : List Char) (h : wordSegOK text = true) :
    (createSyllable p text).full_syllable ≠ [] ∧
    (createSyllable p text).remainder =
      (createSyllable p text).text.drop (createSyllable p text).full_syllable.length ∧
    (createSyllable p text).remainder <:+ toLower text ∧
    (createSyllable p text).remainder.length < text.length := by
  obtain ⟨hne, hall, hnc, hlast, hheadpy, hsuf⟩ := processed_facts p text h
  have hfull : (createSyllable p text).full_syllable ≠ [] := by
    rw [createSyllable_full_eq]
    exact find_initial_final_full_ne_nil p _ hne hall hheadpy
  have hrem : (createSyllable p text).remainder =
      (createSyllable p text).text.drop (createSyllable p text).full_syllable.length := by
    rw [createSyllable_remainder_eq, createSyllable_full_eq]
    exact find_initial_final_remainder p _
  have hsufr : (createSyllable p text).remainder <:+ toLower text := by
    rw [hrem]
    exact (List.drop_suffix _ _).trans hsuf
  refine ⟨hfull, hrem, hsufr, ?_⟩
  rw [hrem, List.length_drop]
  have h1 : 1 ≤ (createSyllable p text).full_syllable.length := by
    cases hfs : (createSyllable p text).full_syllable with
    | nil => exact absurd hfs hfull
    | cons a l => simp
  have h2 : (createSyllable p text).text.length ≤ text.length := by
    have := hsuf.length_le
    rw [toLower, List.length_map] at this
    exact this
  have h3 : 1 ≤ text.length := by
    have := (wordSegOK_parts text h).2.2.2
    cases htx : text with
    | nil => exact absurd htx this
    | cons a l => simp
  omega

/-- A non-empty remainder is itself a valid word-segment text, so the engine
can be re-applied to it. -/
theorem remainder_wordSegOK (p : MethodParams) (text : List Char)
    (h : wordSegOK text = true) (hne : (createSyllable p text).remainder ≠ []) :
    wordSegOK (createSyllable p text).remainder = true := by
  obtain ⟨hpne, hall, hnc, hlast, _, _⟩ := processed_facts p text h
  have hrem := (syllable_progress p text h).2.1
  unfold wordSegOK
  simp only [Bool.and_eq_true]
  refine ⟨⟨?_, ?_⟩, ?_⟩
  · rw [hrem]
    exact all_drop _ _ _ (List.all_eq_true.mpr hall)
  · rw [hrem]
    exact noConsecSym_drop _ _ hnc
  · have hgl : (createSyllable p text).text.getLast? =
        (createSyllable p text).remainder.getLast? := by
      refine getLast?_of_suffix _ _ ?_ hne
      rw [hrem]
      exact List.drop_suffix _ _
    rw [← hgl]
    exact hlast

theorem iterRemainder_nil (p : MethodParams) : ∀ n, iterRemainder p n [] = [] := by
  intro n
  cases n with
  | zero => rfl
  | succ m =>
    unfold iterRemainder
    rw [if_pos rfl]

/-- The remainder chain of a word segment is fully consumed within
`length`-many syllable creations. -/
theorem chain_consumes (p : MethodParams) :
    ∀ (n : Nat) (t : List Char), t.length ≤ n → wordSegOK t = true →
      iterRemainder p n t = [] := by
  intro n
  induction n with
  | zero =>
    intro t hlen hok
    have ht : t = [] := List.length_eq_zero.mp (Nat.le_zero.mp hlen)
    subst ht
    rfl
  | succ m ih =>
    intro t hlen hok
    have htne : t ≠ [] := (wordSegOK_parts t hok).2.2.2
    unfold iterRemainder
    rw [if_neg htne]
    by_cases hre : (createSyllable p t).remainder = []
    · rw [hre]
      exact iterRemainder_nil p m
    · refine ih _ ?_ (remainder_wordSegOK p t hok hre)
      have := (syllable_progress p t hok).2.2.2
      omega

/-- C1: on every word segment (for either romanization method and any
table), the constructed syllable has a non-empty `full_syllable` and a
remainder that is a strictly shorter suffix of the (case-folded) text it was
parsed from, and iterating the engine on successive remainders consumes the
segment within `len(input)` syllable creations. -/
theorem claim_C1 (p : MethodParams) (t : List Char) (h : wordSegOK t = true) :
    (createSyllable p t).full_syllable ≠ [] ∧
    (createSyllable p t).remainder <:+ toLower t ∧
    (createSyllable p t).remainder.length < t.length ∧
    iterRemainder p t.length t = [] := by
  obtain ⟨h1, _, h3, h4⟩ := syllable_progress p t h
  exact ⟨h1, h3, h4, chain_consumes p t.length t (le_refl _) h⟩

/-- Witness for C1 on the word segment `"changan"` with the demonstration
Pinyin table. -/
theorem claim_C1_witness :
    (createSyllable pyDemoParams (chars ("changan"))).full_syllable ≠ [] ∧
    (createSyllable pyDemoParams (chars ("changan"))).remainder <:+
      toLower (chars ("changan")) ∧
    (createSyllable pyDemoParams (chars ("changan"))).remainder.length <
      (chars ("changan")).length ∧
    iterRemainder pyDemoParams (chars ("changan")).length (chars ("changan")) = [] :=
  claim_C1 pyDemoParams (chars ("changan")) (by decide)

/-! ### Claim C4: cherry-pick identity on non-romanizable input -/

/-- C4 counterexamples: with no word convertible, cherry-pick is *not*
byte-for-byte the identity — (1) a mixed-case word comes back lower-cased
(`xYz` → `xyz`); (2) a curly apostrophe is re-emitted as the plain one
(`to’wn` → `to'wn`); (3) a Wade-Giles word-internal apostrophe that starts a
syllable is doubled (`tzu'an` → `tzu''an`). -/
theorem claim_C4_counterexample :
    (cherry_pick pyDemoParams (plainCtx Method.py) (chars ("xYz")) = chars ("xyz") ∧
      chars ("xyz") ≠ chars ("xYz") ∧
      ((process_text pyDemoParams true (chars ("xYz"))).all fun ch =>
        match ch with
        | Chunk.word syls => !is_convertable (plainCtx Method.py) syls
        | Chunk.lit _ => true) = true) ∧
    (cherry_pick pyDemoParams (plainCtx Method.py) (chars ("to’wn")) = chars ("to'wn") ∧
      chars ("to'wn") ≠ chars ("to’wn") ∧
      ((process_text pyDemoParams true (chars ("to’wn"))).all fun ch =>
        match ch with
        | Chunk.word syls => !is_convertable (plainCtx Method.py) syls
        | Chunk.lit _ => true) = true) ∧
    (cherry_pick wgDemo2Params (plainCtx Method.wg) (chars ("tzu'an")) = chars ("tzu''an") ∧
      chars ("tzu''an") ≠ chars ("tzu'an") ∧
      ((process_text wgDemo2Params true (chars ("tzu'an"))).all fun ch =>
        match ch with
        | Chunk.word syls => !is_convertable (plainCtx Method.wg) syls
        | Chunk.lit _ => true) = true) := by
  refine ⟨⟨by decide, by decide, by decide⟩, ⟨by decide, by decide, by decide⟩,
    by decide, by decide, by decide⟩

/-! Prefix shape of the engine's outputs (used for the amended claim C4). -/

theorem find_initial_go_prefix (p : MethodParams) (t : List Char)
    (hnoapos : p.method = Method.wg → ∀ c ∈ t, isApos c = false) :
    ∀ (rest : List Char) (i : Nat), rest = t.drop i →
      find_initial_go p t i rest = ['ø'] ∨ find_initial_go p t i rest <+: t := by
  intro rest
  induction rest with
  | nil =>
    intro i _
    exact Or.inr (List.prefix_refl t)
  | cons c cs ih =>
    intro i hrest
    have hct : c ∈ t := by
      have : c ∈ t.drop i := by
        rw [← hrest]
        exact List.mem_cons_self c cs
      exact List.drop_subset i t this
    unfold find_initial_go
    by_cases hv : isVowel c = true
    · rw [if_pos hv]
      by_cases hi : i = 0
      · rw [if_pos hi]
        exact Or.inl rfl
      · rw [if_neg hi]
        exact Or.inr (List.take_prefix i t)
    · rw [if_neg hv]
      by_cases ha : isApos c = true
      · rw [if_pos ha]
        by_cases hm : p.method = Method.wg
        · exact absurd ha (by rw [hnoapos hm c hct]; exact Bool.false_ne_true)
        · rw [if_neg hm]
          exact Or.inr (List.take_prefix i t)
      · rw [if_neg ha]
        exact ih (i + 1) (drop_succ_of_drop_cons t i c cs hrest)

theorem handle_consonant_case_prefix (p : MethodParams) (t : List Char) (i : Nat)
    (initial : List Char) : handle_consonant_case p t i initial <+: t := by
  simp only [handle_consonant_case, consonant_n_case]
  split_ifs <;> exact List.take_prefix _ t

theorem py_find_final_go_prefix (p : MethodParams) (t initial : List Char) :
    ∀ (rest : List Char) (i : Nat), py_find_final_go p t initial i rest <+: t := by
  intro rest
  induction rest with
  | nil =>
    intro i
    exact List.prefix_refl t
  | cons c cs ih =>
    intro i
    unfold py_find_final_go
    by_cases hv : isVowel c = true
    · rw [if_pos hv]
      cases hvc : handle_vowel_case p t i initial with
      | some f =>
        show f <+: t
        rcases handle_vowel_case_some p t i initial f hvc with h | ⟨_, h⟩
        · rw [h]
        · rw [h]
          exact List.take_prefix i t
      | none => exact ih (i + 1)
    · rw [if_neg hv]
      exact handle_consonant_case_prefix p t i initial

theorem wg_backtrack_prefix (p : MethodParams) (t initial : List Char) :
    wg_backtrack p t initial <+: t := by
  unfold wg_backtrack
  cases (List.range' 1 t.length).reverse.find? (fun fe =>
      validateB p initial (t.take fe)
        && (decide (t.length ≤ fe) || can_form_valid_wg_syllables p (t.drop fe))) with
  | none => exact List.prefix_refl t
  | some fe => exact List.take_prefix fe t

theorem wg_boundaries_prefix (p : MethodParams) (t : List Char) :
    wg_boundaries p t <+: t := by
  rcases wg_boundaries_shape p t with h | ⟨k, _, h⟩
  · rw [h]
  · rw [h]
    exact List.take_prefix k t

theorem wg_find_final_prefix (p : MethodParams) (t initial : List Char) :
    wg_find_final p t initial <+: t := by
  unfold wg_find_final
  cases firstAposIdx t with
  | some i => exact List.take_prefix i t
  | none =>
    by_cases h : initial ≠ [] ∧ initial ≠ ['ø']
    · rw [if_pos h]
      exact wg_backtrack_prefix p t initial
    · rw [if_neg h]
      exact wg_boundaries_prefix p t

theorem find_final_prefix (p : MethodParams) (t initial : List Char) :
    find_final p t initial <+: t := by
  unfold find_final
  cases p.method with
  | py => exact py_find_final_go_prefix p t initial t 0
  | wg => exact wg_find_final_prefix p t initial

/-- On apostrophe-free text (for `wg`; always for `py`) the assembled full
syllable is a prefix of the processed text. -/
theorem full_syllable_prefix (p : MethodParams) (t : List Char)
    (hnoapos : p.method = Method.wg → ∀ c ∈ t, isApos c = false) :
    (find_initial_final p t).2.2.1 <+: t := by
  by_cases hs : find_initial p t = ['ø']
  · rw [find_initial_final_sentinel p t hs]
    exact find_final_prefix p t ['ø']
  · rw [find_initial_final_nonsentinel p t hs]
    show find_initial p t ++ _ <+: t
    have hip : find_initial p t <+: t := by
      rcases find_initial_go_prefix p t hnoapos t 0 rfl with h | h
      · exact absurd h hs
      · exact h
    obtain ⟨srest, hsrest⟩ := hip
    have hdrop : t.drop (find_initial p t).length = srest := by
      have hc := congrArg (fun l => List.drop (find_initial p t).length l) hsrest
      simp only at hc
      rw [List.drop_left] at hc
      exact hc.symm
    rw [hdrop]
    obtain ⟨s2, hs2⟩ := find_final_prefix p srest (find_initial p t)
    exact ⟨s2, by rw [List.append_assoc, hs2, hsrest]⟩

/-! Character facts and casing lemmas for the passthrough-safe alphabet. -/

theorem lower_mem (c : Char) (h : lowerLetters.contains c = true) : c ∈ lowerLetters := by
  simpa using h

theorem upper_mem (c : Char) (h : upperLetters.contains c = true) : c ∈ upperLetters := by
  simpa using h

theorem lowerChar_facts : ∀ c ∈ lowerLetters,
    toLowerChar c = c ∧ isApos c = false ∧ isDash c = false ∧ isSym c = false ∧
    isLetter c = true ∧ isCased c = true ∧ isUpperChar c = false ∧
    isAsciiUpper c = false ∧ segChars.contains c = true := by decide

theorem upperChar_facts : ∀ c ∈ upperLetters,
    toUpperChar (toLowerChar c) = c ∧ isApos c = false ∧ isDash c = false ∧
    isSym c = false ∧ isLetter c = true ∧ isCased c = true ∧ isUpperChar c = true ∧
    isAsciiUpper c = true ∧ segChars.contains c = true ∧
    lowerLetters.contains (toLowerChar c) = true ∧ isLetter (toLowerChar c) = true ∧
    pyIsUpper [c] = true := by decide

theorem mem_of_getLast?_some (l : List Char) (a : Char) (h : l.getLast? = some a) :
    a ∈ l := by
  obtain ⟨hne, heq⟩ := List.mem_getLast?_eq_getLast (Option.mem_def.mpr h)
  rw [heq]
  exact List.getLast_mem hne

theorem toLower_fixed (r : List Char) (h : ∀ c ∈ r, lowerLetters.contains c = true) :
    toLower r = r := by
  rw [toLower]
  have hm : r.map toLowerChar = r.map id :=
    List.map_congr_left fun a ha => (lowerChar_facts a (lower_mem a (h a ha))).1
  rw [hm, List.map_id]

theorem noConsecSym_of_symfree (r : List Char) (h : ∀ c ∈ r, isSym c = false) :
    noConsecSym r = true := by
  induction r with
  | nil => rfl
  | cons c cs ih =>
    cases cs with
    | nil => rfl
    | cons d rest =>
      show (!(isSym c && isSym d) && noConsecSym (d :: rest)) = true
      rw [h c (List.mem_cons_self c (d :: rest)),
        ih fun x hx => h x (List.mem_cons_of_mem c hx)]
      rfl

theorem wordSegOK_of_lower (r : List Char) (hne : r ≠ [])
    (h : ∀ c ∈ r, lowerLetters.contains c = true) : wordSegOK r = true := by
  unfold wordSegOK
  simp only [Bool.and_eq_true]
  refine ⟨⟨?_, ?_⟩, ?_⟩
  · rw [List.all_eq_true]
    intro c hc
    exact (lowerChar_facts c (lower_mem c (h c hc))).2.2.2.2.2.2.2.2
  · exact noConsecSym_of_symfree r fun c hc =>
      (lowerChar_facts c (lower_mem c (h c hc))).2.2.2.1
  · cases hg : r.getLast? with
    | none => exact absurd (List.getLast?_eq_none.mp hg) hne
    | some a =>
      exact (lowerChar_facts a (lower_mem a (h a (mem_of_getLast?_some r a hg)))).2.2.2.2.1

theorem pyIsUpper_head_lower (c : Char) (cs : List Char)
    (hc : lowerLetters.contains c = true) : pyIsUpper (c :: cs) = false := by
  have h1 := lowerChar_facts c (lower_mem c hc)
  unfold pyIsUpper
  simp [List.all_cons, h1.2.2.2.2.2.1, h1.2.2.2.2.2.2.1]

theorem pyIsUpper_title (c d : Char) (cs : List Char)
    (hd : lowerLetters.contains d = true) : pyIsUpper (c :: d :: cs) = false := by
  have h1 := lowerChar_facts d (lower_mem d hd)
  unfold pyIsUpper
  simp [List.all_cons, h1.2.2.2.2.2.1, h1.2.2.2.2.2.2.1]

theorem pyIsUpper_cons_sym (s : Char) (L : List Char) (hs : isCased s = false) :
    pyIsUpper (s :: L) = pyIsUpper L := by
  unfold pyIsUpper
  simp [List.any_cons, List.all_cons, hs]

theorem titlecase_lower (r : List Char) (h : ∀ c ∈ r, lowerLetters.contains c = true) :
    titlecaseOf r = false := by
  unfold titlecaseOf
  cases hf : r.filter (fun c => isAsciiLower c || isAsciiUpper c) with
  | nil => rfl
  | cons d l =>
    have hd : d ∈ r := List.mem_of_mem_filter (by rw [hf]; exact List.mem_cons_self d l)
    show (isAsciiUpper d && l.all isAsciiLower) = false
    rw [(lowerChar_facts d (lower_mem d (h d hd))).2.2.2.2.2.2.2.1]
    rfl

theorem titlecase_title (c : Char) (cs : List Char) (hc : upperLetters.contains c = true)
    (hcs : ∀ d ∈ cs, lowerLetters.contains d = true) : titlecaseOf (c :: cs) = true := by
  have h1 := upperChar_facts c (upper_mem c hc)
  unfold titlecaseOf
  rw [List.filter_cons_of_pos (by rw [h1.2.2.2.2.2.2.2.1, Bool.or_true])]
  show (isAsciiUpper c && (cs.filter fun x => isAsciiLower x || isAsciiUpper x).all
    isAsciiLower) = true
  rw [h1.2.2.2.2.2.2.2.1, Bool.true_and, List.all_eq_true]
  intro d hdf
  have hdc := List.mem_of_mem_filter hdf
  have hpd := List.of_mem_filter hdf
  have h2 := lowerChar_facts d (lower_mem d (hcs d hdc))
  rw [h2.2.2.2.2.2.2.2.1] at hpd
  simpa using hpd

theorem titlecase_cons_sym (s : Char) (L : List Char)
    (hs : isAsciiLower s = false) (hs2 : isAsciiUpper s = false) :
    titlecaseOf (s :: L) = titlecaseOf L := by
  unfold titlecaseOf
  rw [List.filter_cons_of_neg (by rw [hs, hs2]; exact Bool.false_ne_true)]

theorem createSyllable_flags (p : MethodParams) (text : List Char) (c0 : Char)
    (rest : List Char) (hlow : toLower text = c0 :: rest) :
    (createSyllable p text).has_apostrophe = isApos c0 ∧
    (createSyllable p text).has_dash = (!isApos c0 && isDash c0) ∧
    (createSyllable p text).uppercase = pyIsUpper text ∧
    (createSyllable p text).capitalize = titlecaseOf text := by
  simp only [createSyllable, hlow, List.head?]
  exact ⟨trivial, trivial, trivial, trivial⟩

theorem pieces_cons (s : Syl) (l : List Syl) :
    pieces (s :: l) =
      ((if s.has_apostrophe = true then ['\''] else if s.has_dash = true then ['-'] else [])
        ++ syl_apply_caps s s.full_syllable) ++ pieces l := rfl

theorem pieces_append (a b : List Syl) : pieces (a ++ b) = pieces a ++ pieces b := by
  unfold pieces append_all_syllables apply_caps_step
  simp [List.map_append]

/-- The passthrough of the syllable chain over all-lowercase letters
re-assembles the text exactly. -/
theorem chain_passthrough_lower (p : MethodParams) :
    ∀ (n : Nat) (r : List Char), r.length ≤ n →
      (∀ c ∈ r, lowerLetters.contains c = true) →
      pieces (parseChain p n r) = r := by
  intro n
  induction n with
  | zero =>
    intro r hlen _
    have hr : r = [] := List.length_eq_zero.mp (Nat.le_zero.mp hlen)
    subst hr
    rfl
  | succ m ih =>
    intro r hlen hlow
    cases r with
    | nil => rfl
    | cons c cs =>
      have hheadf := lowerChar_facts c (lower_mem c (hlow c (List.mem_cons_self c cs)))
      have hlowfix : toLower (c :: cs) = c :: cs := toLower_fixed _ hlow
      have hwOK : wordSegOK (c :: cs) = true :=
        wordSegOK_of_lower _ (List.cons_ne_nil c cs) hlow
      have hprog := syllable_progress p (c :: cs) hwOK
      have htext : (createSyllable p (c :: cs)).text = c :: cs := by
        rw [createSyllable_text_eq p (c :: cs) c cs hlowfix]
        rw [hheadf.2.1, hheadf.2.2.1]
        rfl
      have hflags := createSyllable_flags p (c :: cs) c cs hlowfix
      have hcaps : syl_apply_caps (createSyllable p (c :: cs))
          (createSyllable p (c :: cs)).full_syllable =
          (createSyllable p (c :: cs)).full_syllable := by
        unfold syl_apply_caps
        rw [hflags.2.2.1, hflags.2.2.2, pyIsUpper_head_lower c cs (hlow c (by simp)),
          titlecase_lower _ hlow]
        rfl
      have hfpre : (createSyllable p (c :: cs)).full_syllable <+: c :: cs := by
        rw [createSyllable_full_eq, htext]
        exact full_syllable_prefix p (c :: cs) fun _ d hd =>
          (lowerChar_facts d (lower_mem d (hlow d hd))).2.1
      have hfeq := List.prefix_iff_eq_take.mp hfpre
      have hrem : (createSyllable p (c :: cs)).remainder =
          (c :: cs).drop (createSyllable p (c :: cs)).full_syllable.length := by
        rw [hprog.2.1, htext]
      show pieces (createSyllable p (c :: cs) ::
        parseChain p m (createSyllable p (c :: cs)).remainder) = c :: cs
      rw [pieces_cons, hflags.1, hheadf.2.1, hflags.2.1, hheadf.2.1, hheadf.2.2.1]
      simp only [Bool.and_false, Bool.false_eq_true, if_false, List.nil_append]
      rw [hcaps]
      have hlow2 : ∀ d ∈ (createSyllable p (c :: cs)).remainder,
          lowerLetters.contains d = true := by
        intro d hd
        rw [hrem] at hd
        exact hlow d (List.drop_subset _ _ hd)
      have hlen2 : (createSyllable p (c :: cs)).remainder.length ≤ m := by
        have := hprog.2.2.2
        omega
      rw [ih _ hlen2 hlow2, hrem]
      nth_rewrite 1 [hfeq]
      exact List.take_append_drop _ (c :: cs)

theorem letter_class_facts (c : Char)
    (h : lowerLetters.contains c = true ∨ upperLetters.contains c = true) :
    segChars.contains c = true ∧ isSym c = false ∧ isLetter c = true ∧
    isApos c = false ∧ lowerLetters.contains (toLowerChar c) = true := by
  rcases h with h | h
  · have hf := lowerChar_facts c (lower_mem c h)
    exact ⟨hf.2.2.2.2.2.2.2.2, hf.2.2.2.1, hf.2.2.2.2.1, hf.2.1, by rw [hf.1]; exact h⟩
  · have hf := upperChar_facts c (upper_mem c h)
    exact ⟨hf.2.2.2.2.2.2.2.2.1, hf.2.2.2.1, hf.2.2.2.2.1, hf.2.1,
      hf.2.2.2.2.2.2.2.2.2.1⟩

/-- A nonempty run of plain letters (lower or upper) is a well-formed word
segment. -/
theorem wordSegOK_of_letters (r : List Char) (hne : r ≠ [])
    (h : ∀ c ∈ r, lowerLetters.contains c = true ∨ upperLetters.contains c = true) :
    wordSegOK r = true := by
  unfold wordSegOK
  simp only [Bool.and_eq_true]
  refine ⟨⟨?_, ?_⟩, ?_⟩
  · rw [List.all_eq_true]
    intro c hc
    exact (letter_class_facts c (h c hc)).1
  · exact noConsecSym_of_symfree r fun c hc => (letter_class_facts c (h c hc)).2.1
  · cases hg : r.getLast? with
    | none => exact absurd (List.getLast?_eq_none.mp hg) hne
    | some a => exact (letter_class_facts a (h a (mem_of_getLast?_some r a hg))).2.2.1

/-- Prepending one word-alphabet symbol to a symbol-free word segment keeps
it well formed. -/
theorem wordSegOK_sym_cons (s : Char) (hseg : segChars.contains s = true)
    (body : List Char) (hb : ∀ c ∈ body, isSym c = false)
    (hbok : wordSegOK body = true) : wordSegOK (s :: body) = true := by
  obtain ⟨hall, hnc, hlast, hne⟩ := wordSegOK_parts body hbok
  cases body with
  | nil => exact absurd rfl hne
  | cons b rest =>
    unfold wordSegOK
    simp only [Bool.and_eq_true]
    refine ⟨⟨?_, ?_⟩, ?_⟩
    · rw [List.all_eq_true]
      intro c hc
      rcases List.mem_cons.mp hc with h | h
      · subst h; exact hseg
      · exact hall c h
    · show (!(isSym s && isSym b) && noConsecSym (b :: rest)) = true
      rw [hb b (List.mem_cons_self b rest), hnc]
      simp
    · rw [List.getLast?_cons_cons]
      exact hlast

/-- One syllable-engine step on a part whose body is a cased letter followed
by lowercase letters reproduces the body: the capitalization flags recover
the original head and the all-lowercase remainder passes through the rest of
the chain verbatim. -/
theorem first_piece (p : MethodParams) (q : List Char) (u : Char) (bs : List Char)
    (hq : wordSegOK q = true)
    (htext : (createSyllable p q).text = toLower (u :: bs))
    (hul : lowerLetters.contains u = true ∨ upperLetters.contains u = true)
    (hbs : ∀ d ∈ bs, lowerLetters.contains d = true)
    (hup : (createSyllable p q).uppercase = pyIsUpper (u :: bs))
    (hcap : (createSyllable p q).capitalize = titlecaseOf (u :: bs)) :
    ∀ m : Nat, (u :: bs).length ≤ m + 1 →
      syl_apply_caps (createSyllable p q) (createSyllable p q).full_syllable
        ++ pieces (parseChain p m (createSyllable p q).remainder) = u :: bs := by
  intro m hm
  obtain ⟨hfne, hrem, _, _⟩ := syllable_progress p q hq
  have hlu : lowerLetters.contains (toLowerChar u) = true := (letter_class_facts u hul).2.2.2.2
  have hbsfix : toLower bs = bs := toLower_fixed bs hbs
  have htext2 : (createSyllable p q).text = toLowerChar u :: bs := by
    rw [htext]
    show toLowerChar u :: toLower bs = _
    rw [hbsfix]
  have hfpre : (createSyllable p q).full_syllable <+: toLowerChar u :: bs := by
    rw [createSyllable_full_eq, htext2]
    refine full_syllable_prefix p _ fun _ d hd => ?_
    rcases List.mem_cons.mp hd with h | h
    · subst h; exact (lowerChar_facts _ (lower_mem _ hlu)).2.1
    · exact (lowerChar_facts d (lower_mem d (hbs d h))).2.1
  have hfeq := List.prefix_iff_eq_take.mp hfpre
  have hk1 : 1 ≤ (createSyllable p q).full_syllable.length := by
    cases hfs : (createSyllable p q).full_syllable with
    | nil => exact absurd hfs hfne
    | cons a l => simp
  obtain ⟨j, hj⟩ : ∃ j, (createSyllable p q).full_syllable.length = j + 1 :=
    ⟨(createSyllable p q).full_syllable.length - 1, by omega⟩
  have hfullform : (createSyllable p q).full_syllable = toLowerChar u :: bs.take j := by
    nth_rewrite 1 [hfeq]
    rw [hj, List.take_succ_cons]
  have hremform : (createSyllable p q).remainder = bs.drop j := by
    rw [hrem, htext2, hj, List.drop_succ_cons]
  have hremlow : ∀ d ∈ (createSyllable p q).remainder, lowerLetters.contains d = true := by
    rw [hremform]
    intro d hd
    exact hbs d (List.drop_subset _ _ hd)
  have hremlen : (createSyllable p q).remainder.length ≤ m := by
    rw [hremform, List.length_drop]
    simp only [List.length_cons] at hm
    omega
  rw [chain_passthrough_lower p m _ hremlen hremlow, hremform, hfullform]
  rcases hul with hulow | huup
  · have hlower : ∀ d ∈ u :: bs, lowerLetters.contains d = true := by
      intro d hd
      rcases List.mem_cons.mp hd with h | h
      · subst h; exact hulow
      · exact hbs d h
    have hid : syl_apply_caps (createSyllable p q) (toLowerChar u :: bs.take j) =
        toLowerChar u :: bs.take j := by
      unfold syl_apply_caps
      rw [hup, hcap, pyIsUpper_head_lower u bs hulow, titlecase_lower _ hlower]
      rfl
    rw [hid, (lowerChar_facts u (lower_mem u hulow)).1, List.cons_append,
      List.take_append_drop]
  · have huf := upperChar_facts u (upper_mem u huup)
    cases bs with
    | nil =>
      have hcaps : syl_apply_caps (createSyllable p q)
          (toLowerChar u :: List.take j []) = [u] := by
        unfold syl_apply_caps
        rw [hup, huf.2.2.2.2.2.2.2.2.2.2.2]
        show toUpper (toLowerChar u :: List.take j []) = [u]
        rw [List.take_nil]
        show [toUpperChar (toLowerChar u)] = [u]
        rw [huf.1]
      rw [hcaps, List.drop_nil]
      rfl
    | cons d ds =>
      have hcaps : syl_apply_caps (createSyllable p q)
          (toLowerChar u :: (d :: ds).take j) = u :: (d :: ds).take j := by
        unfold syl_apply_caps
        rw [hup, hcap, pyIsUpper_title u d ds (hbs d (List.mem_cons_self d ds)),
          titlecase_title u (d :: ds) huup hbs]
        show toUpperChar (toLowerChar u) :: ((d :: ds).take j).map toLowerChar = _
        rw [huf.1]
        have : ((d :: ds).take j).map toLowerChar = (d :: ds).take j :=
          toLower_fixed _ fun x hx => hbs x (List.take_subset _ _ hx)
        rw [this]
      rw [hcaps, List.cons_append, List.take_append_drop]

/-- A passthrough-safe split-word part is reproduced exactly by parsing it
into syllables and reassembling symbols, capitalization and full syllables. -/
theorem part_passthrough (p : MethodParams) (q : List Char) (n : Nat)
    (hn : q.length ≤ n) (hq : partOK p.method q = true) :
    pieces (parseChain p n q) = q := by
  cases q with
  | nil => simp only [partOK, Bool.false_eq_true] at hq
  | cons c cs =>
    cases n with
    | zero => rw [List.length_cons] at hn; omega
    | succ m =>
      show pieces (createSyllable p (c :: cs) ::
        parseChain p m (createSyllable p (c :: cs)).remainder) = c :: cs
      rw [pieces_cons]
      simp only [partOK] at hq
      by_cases hc : c = '\''
      · subst hc
        rw [if_pos rfl] at hq
        simp only [Bool.and_eq_true, decide_eq_true_eq] at hq
        obtain ⟨hmeth, hshape⟩ := hq
        cases cs with
        | nil => exact absurd hshape (by decide)
        | cons u bs =>
          simp only [lettersShapeOK, Bool.and_eq_true, Bool.or_eq_true,
            List.all_eq_true] at hshape
          obtain ⟨hul, hbs⟩ := hshape
          have hlowq : toLower ('\'' :: u :: bs) = '\'' :: toLower (u :: bs) := by
            show toLowerChar '\'' :: toLower (u :: bs) = _
            rw [show toLowerChar '\'' = '\'' from by decide]
          have htext : (createSyllable p ('\'' :: u :: bs)).text = toLower (u :: bs) := by
            rw [createSyllable_text_eq p _ '\'' (toLower (u :: bs)) hlowq, hmeth]
            rw [if_pos (by decide)]
          have hflags := createSyllable_flags p _ '\'' (toLower (u :: bs)) hlowq
          have hap : (createSyllable p ('\'' :: u :: bs)).has_apostrophe = true := by
            rw [hflags.1]; decide
          have hup : (createSyllable p ('\'' :: u :: bs)).uppercase =
              pyIsUpper (u :: bs) := by
            rw [hflags.2.2.1, pyIsUpper_cons_sym '\'' (u :: bs) (by decide)]
          have hcap : (createSyllable p ('\'' :: u :: bs)).capitalize =
              titlecaseOf (u :: bs) := by
            rw [hflags.2.2.2, titlecase_cons_sym '\'' (u :: bs) (by decide) (by decide)]
          have hsymfree : ∀ x ∈ u :: bs, isSym x = false := by
            intro x hx
            rcases List.mem_cons.mp hx with h | h
            · rw [h]; exact (letter_class_facts u hul).2.1
            · exact (letter_class_facts x (Or.inl (hbs x h))).2.1
          have hwOK : wordSegOK ('\'' :: u :: bs) = true :=
            wordSegOK_sym_cons '\'' (by decide) (u :: bs) hsymfree
              (wordSegOK_of_letters (u :: bs) (List.cons_ne_nil u bs) fun x hx => by
                rcases List.mem_cons.mp hx with h | h
                · rw [h]; exact hul
                · exact Or.inl (hbs x h))
          have hm2 : (u :: bs).length ≤ m + 1 := by
            simp only [List.length_cons] at hn ⊢
            omega
          rw [hap, if_pos rfl, List.append_assoc,
            first_piece p _ u bs hwOK htext hul hbs hup hcap m hm2]
          rfl
      · by_cases hc2 : c = '-'
        · subst hc2
          rw [if_neg hc, if_pos rfl] at hq
          cases cs with
          | nil => exact absurd hq (by decide)
          | cons u bs =>
            simp only [lettersShapeOK, Bool.and_eq_true, Bool.or_eq_true,
              List.all_eq_true] at hq
            obtain ⟨hul, hbs⟩ := hq
            have hlowq : toLower ('-' :: u :: bs) = '-' :: toLower (u :: bs) := by
              show toLowerChar '-' :: toLower (u :: bs) = _
              rw [show toLowerChar '-' = '-' from by decide]
            have htext : (createSyllable p ('-' :: u :: bs)).text = toLower (u :: bs) := by
              rw [createSyllable_text_eq p _ '-' (toLower (u :: bs)) hlowq]
              rw [show isApos '-' = false from by decide,
                show isDash '-' = true from by decide]
              rw [Bool.false_and, Bool.false_or, Bool.not_false, Bool.true_and,
                if_pos rfl]
            have hflags := createSyllable_flags p _ '-' (toLower (u :: bs)) hlowq
            have hap : (createSyllable p ('-' :: u :: bs)).has_apostrophe = false := by
              rw [hflags.1]; decide
            have hdash : (createSyllable p ('-' :: u :: bs)).has_dash = true := by
              rw [hflags.2.1]; decide
            have hup : (createSyllable p ('-' :: u :: bs)).uppercase =
                pyIsUpper (u :: bs) := by
              rw [hflags.2.2.1, pyIsUpper_cons_sym '-' (u :: bs) (by decide)]
            have hcap : (createSyllable p ('-' :: u :: bs)).capitalize =
                titlecaseOf (u :: bs) := by
              rw [hflags.2.2.2, titlecase_cons_sym '-' (u :: bs) (by decide) (by decide)]
            have hsymfree : ∀ x ∈ u :: bs, isSym x = false := by
              intro x hx
              rcases List.mem_cons.mp hx with h | h
              · rw [h]; exact (letter_class_facts u hul).2.1
              · exact (letter_class_facts x (Or.inl (hbs x h))).2.1
            have hwOK : wordSegOK ('-' :: u :: bs) = true :=
              wordSegOK_sym_cons '-' (by decide) (u :: bs) hsymfree
                (wordSegOK_of_letters (u :: bs) (List.cons_ne_nil u bs) fun x hx => by
                  rcases List.mem_cons.mp hx with h | h
                  · rw [h]; exact hul
                  · exact Or.inl (hbs x h))
            have hm2 : (u :: bs).length ≤ m + 1 := by
              simp only [List.length_cons] at hn ⊢
              omega
            rw [hap, if_neg (by decide), hdash, if_pos rfl, List.append_assoc,
              first_piece p _ u bs hwOK htext hul hbs hup hcap m hm2]
            rfl
        · rw [if_neg hc, if_neg hc2] at hq
          simp only [lettersShapeOK, Bool.and_eq_true, Bool.or_eq_true,
            List.all_eq_true] at hq
          obtain ⟨hul, hbs⟩ := hq
          have hlc := lowerChar_facts (toLowerChar c)
            (lower_mem _ (letter_class_facts c hul).2.2.2.2)
          have htext : (createSyllable p (c :: cs)).text = toLower (c :: cs) := by
            rw [createSyllable_text_eq p (c :: cs) (toLowerChar c) (toLower cs) rfl]
            rw [hlc.2.1, hlc.2.2.1]
            rw [Bool.false_and, Bool.false_or, Bool.not_false, Bool.true_and]
            rw [if_neg (by decide)]
            rfl
          have hflags := createSyllable_flags p (c :: cs) (toLowerChar c) (toLower cs) rfl
          have hap : (createSyllable p (c :: cs)).has_apostrophe = false := by
            rw [hflags.1]; exact hlc.2.1
          have hdash : (createSyllable p (c :: cs)).has_dash = false := by
            rw [hflags.2.1, hlc.2.1, hlc.2.2.1]; decide
          have hwOK : wordSegOK (c :: cs) = true :=
            wordSegOK_of_letters (c :: cs) (List.cons_ne_nil c cs) fun x hx => by
              rcases List.mem_cons.mp hx with h | h
              · rw [h]; exact hul
              · exact Or.inl (hbs x h)
          rw [hap, if_neg (by decide), hdash, if_neg (by decide), List.nil_append]
          exact first_piece p _ c cs hwOK htext hul hbs hflags.2.2.1 hflags.2.2.2 m hn

theorem pieces_flatten (l : List (List Syl)) :
    pieces l.flatten = (l.map pieces).flatten := by
  induction l with
  | nil => rfl
  | cons a t ih =>
    show pieces (a ++ t.flatten) = _
    rw [pieces_append, ih]
    rfl

/-- Parsing every part of a split word and reassembling the passthrough
pieces reproduces the concatenation of the parts. -/
theorem word_pieces (p : MethodParams) (w : List Char)
    (hparts : (split_word p.method w).all (fun q => partOK p.method q) = true) :
    pieces ((split_word p.method w).map (parseWord p)).flatten
      = (split_word p.method w).flatten := by
  rw [pieces_flatten, List.map_map]
  have hmap : (split_word p.method w).map (pieces ∘ parseWord p) =
      (split_word p.method w).map id :=
    List.map_congr_left fun q hqmem =>
      part_passthrough p q q.length le_rfl (List.all_eq_true.mp hparts q hqmem)
  rw [hmap, List.map_id]

/-- `Word.process_syllables` on the `error_skip` path leaves a
non-convertible word's original pieces untouched. -/
theorem word_passthrough (ctx : WordCtx) (syls : List Syl)
    (hes : ctx.error_skip = true) (hnc : is_convertable ctx syls = false) :
    process_syllables ctx syls = pieces syls := by
  unfold process_syllables add_symbols convert_step
  rw [hes, hnc]
  simp only [Bool.not_true, Bool.false_eq_true, if_false]
  rfl

theorem wordExtF_concat : ∀ (n : Nat) (r : List Char),
    (wordExtF n r).1 ++ (wordExtF n r).2 = r := by
  intro n
  induction n with
  | zero => intro r; rfl
  | succ fuel ih =>
    intro r
    cases r with
    | nil => rfl
    | cons c tl =>
      cases tl with
      | nil => rfl
      | cons d rest =>
        by_cases hcond : (isSym c && isLetter d) = true
        · simp only [wordExtF, hcond, if_true]
          rw [List.span_eq_take_drop]
          simp only [List.cons_append]
          rw [List.append_assoc, ih, List.takeWhile_append_dropWhile]
        · simp only [wordExtF, hcond, Bool.false_eq_true, if_false]
          rfl

theorem takeWordSeg_concat (t : List Char) :
    (takeWordSeg t).1 ++ (takeWordSeg t).2 = t := by
  unfold takeWordSeg
  rw [List.span_eq_take_drop]
  simp only
  rw [List.append_assoc, wordExtF_concat, List.takeWhile_append_dropWhile]

/-- The chunker's segmentation scanner partitions the input: the segments
concatenate back to the text. -/
theorem splitSegsF_concat : ∀ (n : Nat) (t : List Char), t.length ≤ n →
    ((splitSegsF n t).map fun seg => seg.2).flatten = t := by
  intro n
  induction n with
  | zero =>
    intro t hlen
    have ht : t = [] := List.length_eq_zero.mp (Nat.le_zero.mp hlen)
    subst ht
    rfl
  | succ fuel ih =>
    intro t hlen
    cases t with
    | nil => rfl
    | cons c cs =>
      by_cases hc : isLetter c = true
      · simp only [splitSegsF, hc, if_true, List.map_cons, List.flatten_cons]
        have hconc := takeWordSeg_concat (c :: cs)
        have hlen1 : 1 ≤ (takeWordSeg (c :: cs)).1.length := by
          unfold takeWordSeg
          rw [List.span_eq_take_drop]
          simp only [List.length_append]
          rw [List.takeWhile_cons_of_pos hc]
          simp only [List.length_cons]
          omega
        have hlensum := congrArg List.length hconc
        rw [List.length_append] at hlensum
        simp only [List.length_cons] at hlensum hlen
        have hlen2 : (takeWordSeg (c :: cs)).2.length ≤ fuel := by omega
        rw [ih _ hlen2]
        exact hconc
      · simp only [splitSegsF, hc, Bool.false_eq_true, if_false, List.map_cons,
          List.flatten_cons]
        rw [List.span_eq_take_drop]
        simp only
        have hnl : (!isLetter c) = true := by
          cases hx : isLetter c
          · rfl
          · exact absurd hx hc
        have hlen1 : 1 ≤ ((c :: cs).takeWhile fun x => !isLetter x).length := by
          simp only [List.takeWhile_cons, hnl, if_true]
          simp only [List.length_cons]
          omega
        have hconc := List.takeWhile_append_dropWhile (p := fun x => !isLetter x)
          (l := c :: cs)
        have hlensum := congrArg List.length hconc
        rw [List.length_append] at hlensum
        simp only [List.length_cons] at hlensum hlen
        have hlen2 : ((c :: cs).dropWhile fun x => !isLetter x).length ≤ fuel := by omega
        rw [ih _ hlen2]
        exact hconc

/-- C4 (amended): `cherry_pick` is the identity on every text whose word
segments split into parts that reassemble to the segment, each part being an
optional plain leading apostrophe (Pinyin split only) or plain dash followed
by lowercase or Title-cased letters, with no word chunk convertible;
non-text runs always pass through verbatim. (The unrestricted byte-identity
of the original claim is refuted by `claim_C4_counterexample`.) -/
theorem claim_C4 (p : MethodParams) (ctx : WordCtx) (text : List Char)
    (h : cherry_ident_ok p ctx text = true) :
    cherry_pick p ctx text = text := by
  unfold cherry_ident_ok at h
  rw [List.all_eq_true] at h
  show ((process_text p true text).map fun ch => match ch with
      | Chunk.word syls => process_syllables { ctx with error_skip := true } syls
      | Chunk.lit s => s).flatten = text
  unfold process_text
  rw [List.map_map]
  have hmap : (split_text_into_segments true text).map
      ((fun ch => match ch with
        | Chunk.word syls => process_syllables { ctx with error_skip := true } syls
        | Chunk.lit s => s) ∘ fun seg =>
          if seg.1 then
            Chunk.word ((split_word p.method seg.2).map (parseWord p)).flatten
          else Chunk.lit seg.2) =
      (split_text_into_segments true text).map fun seg => seg.2 := by
    apply List.map_congr_left
    intro seg hmem
    obtain ⟨b, s⟩ := seg
    have hseg := h (b, s) hmem
    cases b with
    | false => rfl
    | true =>
      simp only [Bool.not_true, Bool.false_or, Bool.and_eq_true,
        decide_eq_true_eq] at hseg
      obtain ⟨⟨hflat, hparts⟩, hnc⟩ := hseg
      have hncf : is_convertable { ctx with error_skip := true }
          ((split_word p.method s).map (parseWord p)).flatten = false := by
        cases hx : is_convertable { ctx with error_skip := true }
            ((split_word p.method s).map (parseWord p)).flatten
        · rfl
        · rw [hx] at hnc; exact absurd hnc (by decide)
      show process_syllables { ctx with error_skip := true }
          ((split_word p.method s).map (parseWord p)).flatten = s
      rw [word_passthrough _ _ rfl hncf, word_pieces p s hparts, hflat]
  rw [hmap]
  show ((splitSegsF text.length text).map fun seg => seg.2).flatten = text
  exact splitSegsF_concat text.length text le_rfl

theorem claim_C4_witness :
    cherry_ident_ok pyDemoParams (plainCtx Method.py) (chars ("xyz!")) = true ∧
    cherry_pick pyDemoParams (plainCtx Method.py) (chars ("xyz!")) = chars ("xyz!") :=
  ⟨by decide,
    claim_C4 pyDemoParams (plainCtx Method.py) (chars ("xyz!")) (by decide)⟩

end RoManTools
